import Mathlib

/-!
Assembly simulator: the machine of `machine.c`.

A shallow embedding of `grow_stack`, `init_machine`, the operand accessors
(`get_value`, `put_value`, `get_memory_address`) and `execute` with its handlers.

Conventions of the embedding.

* `uint64_t` values are natural numbers; every C operation that can wrap is written
  with an explicit reduction modulo `2^64` (`add64`, `sub64`, `mul64`).
* A failed `assert` is `Fault.assertion`; an access outside the allocated stack
  buffer, a division by zero, a shift by 64 or more and the use of an unset local are
  undefined behaviour in C and are `Fault.undefined`.  Only accesses are checked, not
  the formation of the pointer `machine.stack + offset`.
* The stack buffer is the list of its bytes, `none` being the `NULL` pointer.  Words
  are stored little-endian, as on the hosts the simulator runs on.
* `malloc` returns a block whose bytes are arbitrary: they are read from a parameter
  `heap`, so nothing proved below can depend on them.
-/

namespace AsmSim

/-! ## Machine integers -/

/-- The number of values of a `uint64_t`, `2^64`. -/
abbrev U64 : Nat := 18446744073709551616

/-- The number of values of a `uint32_t`, `2^32`. -/
abbrev U32 : Nat := 4294967296

/-- Addition of two `uint64_t`. -/
def add64 (a b : Nat) : Nat := (a + b) % U64

/-- Subtraction of two `uint64_t`: wraps around when `a < b`. -/
def sub64 (a b : Nat) : Nat := (a % U64 + (U64 - b % U64)) % U64

/-- Multiplication of two `uint64_t`. -/
def mul64 (a b : Nat) : Nat := (a * b) % U64

/-- Modelled from the spec: `WORD_SIZE_BYTES` of `machine.h`, which is not among the
sources; the spec gives the machine word size as 8 bytes. -/
abbrev WORD_SIZE_BYTES : Nat := 8

/-- Modelled from the spec: the remaining constants of `machine.h`, which is not among
the sources.  The spec says that there is an "unset" marker for registers and that the
conditions are a bit-set with one flag per outcome of a comparison, without giving the
values, so they are parameters of the machine. -/
structure Consts where
  REGISTER_NULL : Nat
  CONDITION_ZERO : Nat
  CONDITION_NEGATIVE : Nat
  CONDITION_POSITIVE : Nat

/-- The three condition flags are non-empty bit masks that share no bit. -/
def Consts.flagsDisjoint (k : Consts) : Prop :=
  k.CONDITION_ZERO ≠ 0 ∧ k.CONDITION_NEGATIVE ≠ 0 ∧ k.CONDITION_POSITIVE ≠ 0 ∧
  k.CONDITION_ZERO &&& k.CONDITION_NEGATIVE = 0 ∧
  k.CONDITION_ZERO &&& k.CONDITION_POSITIVE = 0 ∧
  k.CONDITION_NEGATIVE &&& k.CONDITION_POSITIVE = 0

/-- The way a run can end abnormally. -/
inductive Fault where
  | assertion
  | undefined
  deriving DecidableEq, Repr

/-! ## Decoded instructions (`code.h`) -/

/-- Modelled from the spec: the opcode tags of `code.h`, which is not among the sources:
the opcodes `execute` names, and `other` for any further value of the enumeration. -/
inductive Operation where
  | add | sub | subs | mul | sdiv | udiv
  | neg | lsl | lsr | and | orr | eor
  | mov | ldr | str
  | b | bl | bne | beq | blt | bgt | ble | bge
  | cmp | nop | clz | ldrb | strb | ret
  | other (tag : Nat)
  deriving DecidableEq, Repr

/-- Modelled from the spec: the operand tags of `code.h`; `other` stands for any further
value of the enumeration, such as the tag of an operand slot that is not used. -/
inductive OperandType where
  | constant | address | register | memory
  | other (tag : Nat)
  deriving DecidableEq, Repr

/-- Modelled from the spec: the register-width tags of `code.h`; `other` stands for any
further value of the enumeration. -/
inductive RegisterType where
  | w | x | sp | pc
  | other (tag : Nat)
  deriving DecidableEq, Repr

/-- Modelled from the spec: `struct operand_t` of `code.h`, with the four fields the
machine reads.  The register index is in `0..30`, as the spec requires. -/
structure Operand where
  type : OperandType
  reg_type : RegisterType
  reg_num : Fin 31
  constant : Nat
  deriving DecidableEq, Repr

/-- Modelled from the spec: `struct instruction_t` of `code.h`: an opcode and three
operand slots. -/
structure Instruction where
  operation : Operation
  operands : Fin 3 → Operand

/-! ## The machine state (`struct machine_t`) -/

/-- Modelled from the spec: `struct machine_t` of `machine.h`, with the fields
`machine.c` uses. -/
structure Machine where
  registers : Fin 31 → Nat
  sp : Nat
  pc : Nat
  conditions : Nat
  code : List Instruction
  code_top : Nat
  code_bot : Nat
  stack : Option (List Nat)
  stack_top : Nat
  stack_bot : Nat

/-! ## Memory blocks -/

/-- A fresh block of `n` bytes, the result of `malloc(n)`, which is taken to succeed; its
contents are whatever the heap holds. -/
def malloc (heap : Nat → Nat) (n : Nat) : List Nat := (List.range n).map heap

/-- Overwrite `bs.length` bytes of `buf` from offset `off` on; undefined when the
bytes do not all lie inside `buf`. -/
def write_bytes (buf : List Nat) (off : Nat) (bs : List Nat) : Except Fault (List Nat) :=
  if off + bs.length ≤ buf.length then
    .ok (buf.take off ++ bs ++ buf.drop (off + bs.length))
  else .error .undefined

/-- Read `n` bytes of `buf` from offset `off` on; undefined when they do not all lie
inside `buf`. -/
def read_bytes (buf : List Nat) (off n : Nat) : Except Fault (List Nat) :=
  if off + n ≤ buf.length then .ok ((buf.drop off).take n) else .error .undefined

/-- The call `memset(buf + off, c, n)`; undefined when the `n` bytes do not all lie
inside `buf`. -/
def memset (buf : List Nat) (off c n : Nat) : Except Fault (List Nat) :=
  if off + n ≤ buf.length then
    .ok (buf.take off ++ List.replicate n c ++ buf.drop (off + n))
  else .error .undefined

/-- The call `memcpy(dst + off, src, n)`. -/
def memcpy (dst : List Nat) (off : Nat) (src : List Nat) (n : Nat) :
    Except Fault (List Nat) := do
  let bs ← read_bytes src 0 n
  write_bytes dst off bs

/-- The `n` low bytes of `v`, least significant first. -/
def to_bytes : Nat → Nat → List Nat
  | 0, _ => []
  | n + 1, v => v % 256 :: to_bytes n (v / 256)

/-- The value of a little-endian sequence of bytes. -/
def of_bytes : List Nat → Nat
  | [] => 0
  | b :: bs => b % 256 + 256 * of_bytes bs

/-- Read an `n`-byte word at offset `off` of the stack buffer. -/
def load (stack : Option (List Nat)) (off n : Nat) : Except Fault Nat :=
  match stack with
  | none => .error .undefined
  | some buf => do
    let bs ← read_bytes buf off n
    pure (of_bytes bs)

/-- Write the `n` low bytes of `v` at offset `off` of the stack buffer. -/
def store (stack : Option (List Nat)) (off n v : Nat) : Except Fault (Option (List Nat)) :=
  match stack with
  | none => .error .undefined
  | some buf => do
    let buf ← write_bytes buf off (to_bytes n v)
    pure (some buf)

/-- The byte of the simulated stack at the absolute address `addr`, when `addr` lies
between the bounds and the buffer holds it. -/
def Machine.byteAt (m : Machine) (addr : Nat) : Option Nat :=
  if m.stack_top ≤ addr ∧ addr ≤ m.stack_bot then
    match m.stack with
    | none => none
    | some buf => buf[addr - m.stack_top]?
  else none

/-! ## `grow_stack` and `init_machine` -/

/-- The function `grow_stack`. -/
def grow_stack (heap : Nat → Nat) (m : Machine) (new_sp : Nat) : Except Fault Machine :=
  if new_sp < m.stack_top then
    let new_sp :=
      if new_sp % WORD_SIZE_BYTES ≠ 0 then sub64 new_sp (new_sp % WORD_SIZE_BYTES) else new_sp
    let new_stack := malloc heap (add64 (sub64 m.stack_bot new_sp) 1)
    do
      let new_stack ← memset new_stack 0 0 (sub64 m.stack_top new_sp)
      let new_stack ←
        match m.stack with
        | some old =>
          memcpy new_stack (sub64 m.stack_top new_sp) old
            (add64 (sub64 m.stack_bot m.stack_top) 1)
        | none => pure new_stack
      pure { m with stack := some new_stack, stack_top := new_sp }
  else if new_sp > m.stack_bot then
    let new_sp :=
      if new_sp % WORD_SIZE_BYTES ≠ 0 then
        add64 new_sp (sub64 WORD_SIZE_BYTES (new_sp % WORD_SIZE_BYTES))
      else add64 new_sp WORD_SIZE_BYTES
    let new_stack := malloc heap (sub64 new_sp m.stack_top)
    do
      let new_stack ←
        memset new_stack (sub64 m.stack_bot m.stack_top) 0 (sub64 new_sp m.stack_bot)
      let new_stack ←
        match m.stack with
        | some old => memcpy new_stack 0 old (sub64 m.stack_bot m.stack_top)
        | none => pure new_stack
      pure { m with stack := some new_stack, stack_bot := sub64 new_sp 1 }
  else pure m

/-- The function `init_machine`; `parsed` is what `parse_file` returns: the decoded
instructions and the bounds of the code segment. -/
def init_machine (k : Consts) (heap : Nat → Nat) (sp pc : Nat)
    (parsed : List Instruction × Nat × Nat) : Except Fault Machine := do
  let stack ← memset (malloc heap WORD_SIZE_BYTES) 0 0 WORD_SIZE_BYTES
  pure
    { registers := fun _ => k.REGISTER_NULL
      sp := sp
      pc := pc
      conditions := 0
      code := parsed.1
      code_top := parsed.2.1
      code_bot := parsed.2.2
      stack := some stack
      stack_top := sp
      stack_bot := sub64 (add64 sp WORD_SIZE_BYTES) 1 }

/-! ## Operand accessors -/

/-- The function `get_value`.  The `assert` admits the constant, address and register
tags only, so the outer `default` of the C `switch` is never reached; an unknown
register tag falls through both `default` labels and yields `0`. -/
def get_value (m : Machine) (operand : Operand) : Except Fault Nat :=
  match operand.type with
  | .constant => pure (operand.constant % U64)
  | .address => pure (operand.constant % U64)
  | .register =>
    match operand.reg_type with
    | .x => pure (m.registers operand.reg_num)
    | .w => pure (m.registers operand.reg_num % U32)
    | .sp => pure m.sp
    | .pc => pure m.pc
    | .other _ => pure 0
  | .memory => .error .assertion
  | .other _ => .error .assertion

/-- The function `put_value`. -/
def put_value (m : Machine) (operand : Operand) (value : Nat) : Except Fault Machine :=
  if operand.type = .register then
    match operand.reg_type with
    | .w => pure { m with registers := Function.update m.registers operand.reg_num (value % U32) }
    | .x => pure { m with registers := Function.update m.registers operand.reg_num value }
    | .sp => pure { m with sp := value }
    | .pc => pure { m with pc := value }
    | .other _ => pure m
  else .error .assertion

/-- The function `get_memory_address`. -/
def get_memory_address (m : Machine) (operand : Operand) : Except Fault Nat :=
  if operand.type = .memory then do
    let reg_operand : Operand :=
      { type := .register, reg_type := operand.reg_type, reg_num := operand.reg_num,
        constant := 0 }
    let base_value ← get_value m reg_operand
    pure (add64 base_value operand.constant)
  else .error .assertion

/-! ## The handlers of `execute` -/

/-- The `switch` of `execute_arithmetic`, which computes `result`; dividing by zero is
undefined, and so is reading `result` when no case has set it. -/
def arithmetic_result (operation : Operation) (op1 op2 : Nat) : Except Fault Nat :=
  match operation with
  | .add => pure (add64 op1 op2)
  | .sub => pure (sub64 op1 op2)
  | .subs => pure (sub64 op1 op2)
  | .mul => pure (mul64 op1 op2)
  | .sdiv => if op2 = 0 then .error .undefined else pure (op1 / op2)
  | .udiv => if op2 = 0 then .error .undefined else pure (op1 / op2)
  | _ => .error .undefined

/-- The function `execute_arithmetic`. -/
def execute_arithmetic (m : Machine) (instruction : Instruction) : Except Fault Machine := do
  let op1 ← get_value m (instruction.operands 1)
  let op2 ← get_value m (instruction.operands 2)
  let result ← arithmetic_result instruction.operation op1 op2
  put_value m (instruction.operands 0) result

/-- The `switch` of `execute_bitwise`, which computes `result`; shifting by 64 or more is
undefined, and so is reading `result` when no case has set it. -/
def bitwise_result (operation : Operation) (op1 op2 : Nat) : Except Fault Nat :=
  match operation with
  | .neg => pure (sub64 0 op1)
  | .lsl => if 64 ≤ op2 then .error .undefined else pure ((op1 <<< op2) % U64)
  | .lsr => if 64 ≤ op2 then .error .undefined else pure (op1 >>> op2)
  | .and => pure (op1 &&& op2)
  | .orr => pure (op1 ||| op2)
  | .eor => pure (op1 ^^^ op2)
  | _ => .error .undefined

/-- The function `execute_bitwise`. -/
def execute_bitwise (m : Machine) (instruction : Instruction) : Except Fault Machine := do
  let op1 ← get_value m (instruction.operands 1)
  let op2 ← get_value m (instruction.operands 2)
  let result ← bitwise_result instruction.operation op1 op2
  put_value m (instruction.operands 0) result

/-- The function `execute_ldr`. -/
def execute_ldr (m : Machine) (instruction : Instruction) : Except Fault Machine := do
  let simulated_address ← get_memory_address m (instruction.operands 1)
  let offset := sub64 simulated_address m.stack_top
  match (instruction.operands 0).reg_type with
  | .w => do
    let v ← load m.stack offset 4
    put_value m (instruction.operands 0) v
  | .x => do
    let v ← load m.stack offset 8
    put_value m (instruction.operands 0) v
  | .sp => do
    let v ← load m.stack offset 8
    pure { m with sp := v }
  | _ => pure m

/-- The function `execute_str`. -/
def execute_str (m : Machine) (instruction : Instruction) : Except Fault Machine := do
  let simulated_address ← get_memory_address m (instruction.operands 1)
  let offset := sub64 simulated_address m.stack_top
  match (instruction.operands 0).reg_type with
  | .w => do
    let v ← get_value m (instruction.operands 0)
    let stack ← store m.stack offset 4 (v % U32)
    pure { m with stack := stack }
  | .x => do
    let v ← get_value m (instruction.operands 0)
    let stack ← store m.stack offset 8 v
    pure { m with stack := stack }
  | _ => pure m

/-- The function `execute_cmp`. -/
def execute_cmp (k : Consts) (m : Machine) (instruction : Instruction) :
    Except Fault Machine := do
  let operand1 ← get_value m (instruction.operands 0)
  let operand2 ← get_value m (instruction.operands 1)
  if operand1 = operand2 then
    pure { m with conditions := k.CONDITION_ZERO }
  else if operand1 < operand2 then
    pure { m with conditions := k.CONDITION_NEGATIVE }
  else
    pure { m with conditions := k.CONDITION_POSITIVE }

/-- The function `execute_branches`. -/
def execute_branches (k : Consts) (m : Machine) (instruction : Instruction) :
    Except Fault Machine := do
  let target ← get_value m (instruction.operands 0)
  match instruction.operation with
  | .b => pure { m with pc := target }
  | .bl =>
    pure { m with registers := Function.update m.registers 30 (add64 m.pc 4), pc := target }
  | .beq =>
    if m.conditions &&& k.CONDITION_ZERO ≠ 0 then pure { m with pc := target } else pure m
  | .bne =>
    if ¬ (m.conditions &&& k.CONDITION_ZERO ≠ 0) then pure { m with pc := target } else pure m
  | .blt =>
    if m.conditions &&& k.CONDITION_NEGATIVE ≠ 0 then pure { m with pc := target } else pure m
  | .bgt =>
    if m.conditions &&& k.CONDITION_POSITIVE ≠ 0 then pure { m with pc := target } else pure m
  | .ble =>
    if m.conditions &&& k.CONDITION_ZERO ≠ 0 ∨ m.conditions &&& k.CONDITION_NEGATIVE ≠ 0 then
      pure { m with pc := target }
    else pure m
  | .bge =>
    if m.conditions &&& k.CONDITION_ZERO ≠ 0 ∨ m.conditions &&& k.CONDITION_POSITIVE ≠ 0 then
      pure { m with pc := target }
    else pure m
  | _ => pure m

/-- The loop of `execute_clz`: the first argument is `i + 1`, the number of bit positions
still to test, from the most significant one down. -/
def clz_loop (value : Nat) : Nat → Nat → Nat
  | 0, count => count
  | i + 1, count =>
    if (value >>> i) &&& 1 ≠ 0 then count else clz_loop value i (count + 1)

/-- The function `execute_clz`; with a destination that is neither a `w` nor an `x`
register the local `amount` is read unset, which is undefined. -/
def execute_clz (m : Machine) (instruction : Instruction) : Except Fault Machine := do
  let value ← get_value m (instruction.operands 1)
  match (instruction.operands 0).reg_type with
  | .w => put_value m (instruction.operands 0) (clz_loop (value &&& 0xFFFFFFFF) 32 0)
  | .x => put_value m (instruction.operands 0) (clz_loop value 64 0)
  | _ => .error .undefined

/-- The function `execute_ldrb`. -/
def execute_ldrb (m : Machine) (instruction : Instruction) : Except Fault Machine := do
  let simulated_address ← get_memory_address m (instruction.operands 1)
  let offset := sub64 simulated_address m.stack_top
  let v ← load m.stack offset 1
  put_value m (instruction.operands 0) v

/-- The function `execute_strb`. -/
def execute_strb (m : Machine) (instruction : Instruction) : Except Fault Machine := do
  let simulated_address ← get_memory_address m (instruction.operands 1)
  let offset := sub64 simulated_address m.stack_top
  let v ← get_value m (instruction.operands 0)
  let stack ← store m.stack offset 1 (v % 256)
  pure { m with stack := stack }

/-- The function `execute_ret`. -/
def execute_ret (m : Machine) : Machine := { m with pc := m.registers 30 }

/-- The function `execute`. -/
def execute (k : Consts) (m : Machine) (instruction : Instruction) : Except Fault Machine :=
  match instruction.operation with
  | .add | .sub | .subs | .mul | .sdiv | .udiv => execute_arithmetic m instruction
  | .neg | .lsl | .lsr | .and | .orr | .eor => execute_bitwise m instruction
  | .mov => do
    let v ← get_value m (instruction.operands 1)
    put_value m (instruction.operands 0) v
  | .ldr => execute_ldr m instruction
  | .str => execute_str m instruction
  | .b | .bl | .bne | .beq | .blt | .bgt | .ble | .bge => execute_branches k m instruction
  | .cmp => execute_cmp k m instruction
  | .nop => pure m
  | .clz => execute_clz m instruction
  | .ldrb => execute_ldrb m instruction
  | .strb => execute_strb m instruction
  | .ret => pure (execute_ret m)
  | .other _ => pure m

/-! ## Reachable states -/

/-- The states a run can be in: the one `init_machine` builds, and those a call of
`grow_stack` on a 64-bit address or a call of `execute` returns from such a state. -/
inductive Reachable (k : Consts) (sp : Nat) : Machine → Prop where
  | init (heap : Nat → Nat) (pc : Nat) (parsed : List Instruction × Nat × Nat) (m : Machine) :
      init_machine k heap sp pc parsed = .ok m → Reachable k sp m
  | grow (heap : Nat → Nat) (m m1 : Machine) (a : Nat) :
      Reachable k sp m → a < U64 → grow_stack heap m a = .ok m1 → Reachable k sp m1
  | exec (m m1 : Machine) (instruction : Instruction) :
      Reachable k sp m → execute k m instruction = .ok m1 → Reachable k sp m1

/-! ## Invariants of the stack -/

/-- The invariant of the data model that ties the buffer to the bounds: the machine holds
the buffer `buf`, the bounds are ordered 64-bit addresses, and `buf` has one byte for each
address from `stack_top` to `stack_bot`. -/
def Machine.stackInv (m : Machine) (buf : List Nat) : Prop :=
  m.stack = some buf ∧ m.stack_top ≤ m.stack_bot ∧ m.stack_bot < U64 ∧
  buf.length = m.stack_bot - m.stack_top + 1

/-- Covering the address `a` would make the stack span all `2^64` addresses, a size that
the 64-bit size passed to `malloc` cannot express. -/
def spansAll (m : Machine) (a : Nat) : Prop :=
  (a < m.stack_top ∧ m.stack_bot = U64 - 1 ∧ a < WORD_SIZE_BYTES) ∨
  (m.stack_bot < a ∧ m.stack_top = 0 ∧ U64 - WORD_SIZE_BYTES ≤ a)

/-- What `execute` never changes about the stack: the two bounds, and the presence and
length of the buffer. -/
def sameShape (m m1 : Machine) : Prop :=
  m1.stack_top = m.stack_top ∧ m1.stack_bot = m.stack_bot ∧
  ∀ buf, m.stack = some buf → ∃ buf1, m1.stack = some buf1 ∧ buf1.length = buf.length

/-- The conditional branches. -/
def is_conditional_branch (operation : Operation) : Bool :=
  match operation with
  | .beq | .bne | .blt | .bgt | .ble | .bge => true
  | _ => false

/-- The instruction does not redirect the control flow in the state `m`: it is a `nop`, a
`cmp`, a store, or a `mov`, an arithmetic, a bitwise, a `clz` or a load instruction whose
destination is not tagged as the program counter, or it is a conditional branch whose test
on `m.conditions` fails. -/
def falls_through (k : Consts) (m : Machine) (i : Instruction) : Bool :=
  match i.operation with
  | .nop | .cmp | .str | .strb => true
  | .mov | .add | .sub | .subs | .mul | .sdiv | .udiv
  | .neg | .lsl | .lsr | .and | .orr | .eor | .clz | .ldr | .ldrb =>
    decide ((i.operands 0).reg_type ≠ .pc)
  | .beq => decide (¬ (m.conditions &&& k.CONDITION_ZERO ≠ 0))
  | .bne => decide (m.conditions &&& k.CONDITION_ZERO ≠ 0)
  | .blt => decide (¬ (m.conditions &&& k.CONDITION_NEGATIVE ≠ 0))
  | .bgt => decide (¬ (m.conditions &&& k.CONDITION_POSITIVE ≠ 0))
  | .ble =>
    decide (¬ (m.conditions &&& k.CONDITION_ZERO ≠ 0 ∨
      m.conditions &&& k.CONDITION_NEGATIVE ≠ 0))
  | .bge =>
    decide (¬ (m.conditions &&& k.CONDITION_ZERO ≠ 0 ∨
      m.conditions &&& k.CONDITION_POSITIVE ≠ 0))
  | _ => false

/-- The opcodes `execute` has a case for. -/
def recognized (operation : Operation) : Bool :=
  match operation with
  | .other _ => false
  | _ => true

/-- The state in which the general register of the operand `d` holds `v`: all of `v`
through the 64-bit view, its low 32 bits through any other view. -/
def with_register (m : Machine) (d : Operand) (v : Nat) : Machine :=
  { m with registers :=
      Function.update m.registers d.reg_num (if d.reg_type = .x then v else v % U32) }

/-- The operand names a general register through its 32-bit or its 64-bit view. -/
def is_general_register (d : Operand) : Prop :=
  d.type = .register ∧ (d.reg_type = .x ∨ d.reg_type = .w)

/-- The instructions that hand their operand 0 to `put_value`, or select on its width tag,
after all the rest of their work: `mov`, the arithmetic and the bitwise instructions, `ldr`,
`ldrb` and `str`. -/
def width_tag_decides (operation : Operation) : Bool :=
  match operation with
  | .mov | .add | .sub | .subs | .mul | .sdiv | .udiv
  | .neg | .lsl | .lsr | .and | .orr | .eor | .ldr | .ldrb | .str => true
  | _ => false

/-- A register operand whose width tag is none of `w`, `x`, `sp`, `pc`. -/
def bad_register (tag : Nat) (n : Fin 31) : Operand :=
  { type := .register, reg_type := .other tag, reg_num := n, constant := 0 }

/-- The buffer `buf` with the bytes `bs` written over it from offset `off` on. -/
def patch (buf : List Nat) (off : Nat) (bs : List Nat) : List Nat :=
  buf.take off ++ bs ++ buf.drop (off + bs.length)

/-- The reachable states, with a record of whether a `cmp` has been executed on the way:
`ReachableCmp k sp c m` says that `m` is reachable from `init_machine` with the initial
stack pointer `sp` by calls of `grow_stack` and `execute`, and that `c` is `true` exactly
when one of the executed instructions was a `cmp`. -/
inductive ReachableCmp (k : Consts) (sp : Nat) : Bool → Machine → Prop where
  | init (heap : Nat → Nat) (pc : Nat) (parsed : List Instruction × Nat × Nat) (m : Machine) :
      init_machine k heap sp pc parsed = .ok m → ReachableCmp k sp false m
  | grow (heap : Nat → Nat) (c : Bool) (m m1 : Machine) (a : Nat) :
      ReachableCmp k sp c m → a < U64 → grow_stack heap m a = .ok m1 → ReachableCmp k sp c m1
  | exec (c : Bool) (m m1 : Machine) (instruction : Instruction) :
      ReachableCmp k sp c m → execute k m instruction = .ok m1 →
      ReachableCmp k sp (c || decide (instruction.operation = .cmp)) m1

/-- The state after the value `v` has been written to the register operand `d`: into the
whole slot of the general register through the 64-bit view, its low 32 bits into that
slot through the 32-bit view, into `sp` or `pc` through their tags, and nowhere when the
width tag is none of these. -/
def write_destination (m : Machine) (d : Operand) (v : Nat) : Machine :=
  match d.reg_type with
  | .x => { m with registers := Function.update m.registers d.reg_num v }
  | .w => { m with registers := Function.update m.registers d.reg_num (v % U32) }
  | .sp => { m with sp := v }
  | .pc => { m with pc := v }
  | .other _ => m

/-- The register operand `sp`. -/
def spreg : Operand := { type := .register, reg_type := .sp, reg_num := 0, constant := 0 }

/-- The register operand `pc`. -/
def pcreg : Operand := { type := .register, reg_type := .pc, reg_num := 0, constant := 0 }

/-- The fault a run ended with, if it did. -/
def fault {α : Type} : Except Fault α → Option Fault
  | .ok _ => none
  | .error e => some e

/-- Run `execute` on a sequence of instructions, from the state `m` on. -/
def run (k : Consts) (m : Machine) : List Instruction → Except Fault Machine
  | [] => pure m
  | i :: is => do
    let m1 ← execute k m i
    run k m1 is

/-! ## Concrete data for the examples -/

/-- Flags on three different bits. -/
def k0 : Consts :=
  { REGISTER_NULL := 0, CONDITION_ZERO := 1, CONDITION_NEGATIVE := 2, CONDITION_POSITIVE := 4 }

/-- A heap whose fresh blocks hold `0xAA` bytes. -/
def heap0 : Nat → Nat := fun _ => 170

/-- An immediate operand. -/
def imm (v : Nat) : Operand :=
  { type := .constant, reg_type := .other 0, reg_num := 0, constant := v }

/-- The 64-bit view of register `n`. -/
def xreg (n : Fin 31) : Operand :=
  { type := .register, reg_type := .x, reg_num := n, constant := 0 }

/-- The 32-bit view of register `n`. -/
def wreg (n : Fin 31) : Operand :=
  { type := .register, reg_type := .w, reg_num := n, constant := 0 }

/-- The memory operand `[sp, off]`. -/
def mem_sp (off : Nat) : Operand :=
  { type := .memory, reg_type := .sp, reg_num := 0, constant := off }

/-- An operand slot that is not used. -/
def unused : Operand :=
  { type := .other 0, reg_type := .other 0, reg_num := 0, constant := 0 }

/-- The instruction with opcode `op` and the three operands `a`, `b`, `c`. -/
def instr (op : Operation) (a b c : Operand) : Instruction :=
  { operation := op
    operands := fun j => if j = 0 then a else if j = 1 then b else c }

/-- A machine with the given program counter and stack, and everything else zero. -/
def machine0 (pc top bot : Nat) (stack : List Nat) : Machine :=
  { registers := fun _ => 0, sp := top, pc := pc, conditions := 0, code := [], code_top := 0,
    code_bot := 0, stack := some stack, stack_top := top, stack_bot := bot }

/-! ## Lemmas on memory blocks and on `grow_stack` -/

theorem sub64_of_le {a b : Nat} (ha : a < U64) (hb : b ≤ a) : sub64 a b = a - b := by
  simp only [sub64, U64, WORD_SIZE_BYTES] at *; omega

theorem add64_of_lt {a b : Nat} (h : a + b < U64) : add64 a b = a + b := by
  simp only [add64, U64] at *; omega

theorem length_malloc (heap : Nat → Nat) (n : Nat) : (malloc heap n).length = n := by
  simp [malloc]

theorem memset_ok {buf : List Nat} {off n : Nat} (c : Nat) (h : off + n ≤ buf.length) :
    memset buf off c n = .ok (buf.take off ++ List.replicate n c ++ buf.drop (off + n)) := by
  simp [memset, h]

theorem memcpy_ok {dst src : List Nat} {off n : Nat} (hs : n ≤ src.length)
    (hd : off + n ≤ dst.length) :
    memcpy dst off src n = .ok (dst.take off ++ src.take n ++ dst.drop (off + n)) := by
  have h1 : read_bytes src 0 n = .ok (src.take n) := by simp [read_bytes, hs]
  have h2 : off + (src.take n).length ≤ dst.length := by
    simp [List.length_take, Nat.min_eq_left hs, hd]
  simp only [memcpy, h1, bind, Except.bind, write_bytes, h2, if_true]
  simp [List.length_take, Nat.min_eq_left hs]

theorem overlay_front (M buf : List Nat) (p n : Nat) (hn : n = buf.length)
    (hM : M.length = p + buf.length) :
    List.take p (List.take 0 M ++ List.replicate p 0 ++ List.drop (0 + p) M) ++ List.take n buf ++
      List.drop (p + n) (List.take 0 M ++ List.replicate p 0 ++ List.drop (0 + p) M) =
    List.replicate p 0 ++ buf := by
  subst hn
  have h1 : List.take p (List.take 0 M ++ List.replicate p 0 ++ List.drop (0 + p) M)
      = List.replicate p 0 := by
    simp only [List.take_zero, List.nil_append]
    exact List.take_left' (by simp)
  have h2 : List.drop (p + buf.length) (List.take 0 M ++ List.replicate p 0 ++ List.drop (0 + p) M)
      = [] := by
    apply List.drop_eq_nil_of_le
    simp; omega
  rw [h1, h2, List.take_length, List.append_nil]


theorem grow_stack_up (heap : Nat → Nat) (m : Machine) (buf : List Nat) (a : Nat)
    (hinv : m.stackInv buf) (ha : a < m.stack_top)
    (hfit : ¬ (m.stack_bot = U64 - 1 ∧ a < WORD_SIZE_BYTES)) :
    grow_stack heap m a = .ok
      { m with stack := some (List.replicate (m.stack_top - (a - a % 8)) 0 ++ buf),
               stack_top := a - a % 8 } := by
  obtain ⟨hs, htb, hb, hlen⟩ := hinv
  have hr : (if a % WORD_SIZE_BYTES ≠ 0 then sub64 a (a % WORD_SIZE_BYTES) else a) = a - a % 8 := by
    simp only [sub64, U64, WORD_SIZE_BYTES] at *; split <;> omega
  have e1 : add64 (sub64 m.stack_bot (a - a % 8)) 1 = m.stack_bot - (a - a % 8) + 1 := by
    simp only [add64, sub64, U64, WORD_SIZE_BYTES] at *; omega
  have e2 : sub64 m.stack_top (a - a % 8) = m.stack_top - (a - a % 8) := by
    simp only [sub64, U64, WORD_SIZE_BYTES] at *; omega
  have e3 : add64 (sub64 m.stack_bot m.stack_top) 1 = m.stack_bot - m.stack_top + 1 := by
    simp only [add64, sub64, U64, WORD_SIZE_BYTES] at *; omega
  simp only [grow_stack, if_pos ha, hr, e1, e2, e3, hs]
  rw [memset_ok 0 (by rw [length_malloc]; simp only [U64, WORD_SIZE_BYTES] at *; omega)]
  simp only [bind, Except.bind]
  rw [memcpy_ok (by omega) (by simp [length_malloc]; simp only [U64, WORD_SIZE_BYTES] at *; omega)]
  simp only [pure, Except.pure]
  rw [overlay_front _ _ _ _ (by omega) (by rw [length_malloc]; simp only [U64, WORD_SIZE_BYTES] at *; omega)]


theorem overlay_back (M buf : List Nat) (q n : Nat) (hM : M.length = q + n) :
    List.take 0 (List.take q M ++ List.replicate n 0 ++ List.drop (q + n) M) ++ List.take q buf ++
      List.drop (0 + q) (List.take q M ++ List.replicate n 0 ++ List.drop (q + n) M) =
    List.take q buf ++ List.replicate n 0 := by
  have h2 : List.drop (q + n) M = [] := List.drop_eq_nil_of_le (by omega)
  have h1 : List.drop (0 + q) (List.take q M ++ List.replicate n 0 ++ List.drop (q + n) M)
      = List.replicate n 0 := by
    rw [h2, List.append_nil, Nat.zero_add]
    exact List.drop_left' (by simp; omega)
  rw [h1, List.take_zero, List.nil_append]

theorem grow_stack_down (heap : Nat → Nat) (m : Machine) (buf : List Nat) (a : Nat)
    (hinv : m.stackInv buf) (ha : m.stack_bot < a) (ha64 : a < U64)
    (hfit : ¬ (m.stack_top = 0 ∧ U64 - WORD_SIZE_BYTES ≤ a)) :
    grow_stack heap m a = .ok
      { m with stack := some (List.take (m.stack_bot - m.stack_top) buf ++
                              List.replicate (a - a % 8 + 8 - m.stack_bot) 0),
               stack_bot := a - a % 8 + 7 } := by
  obtain ⟨hs, htb, hb, hlen⟩ := hinv
  have hnot : ¬ a < m.stack_top := by omega
  have hgt : a > m.stack_bot := ha
  have hr : (if a % WORD_SIZE_BYTES ≠ 0 then
        add64 a (sub64 WORD_SIZE_BYTES (a % WORD_SIZE_BYTES))
      else add64 a WORD_SIZE_BYTES) = (a - a % 8 + 8) % U64 := by
    simp only [add64, sub64, U64, WORD_SIZE_BYTES] at *; split <;> omega
  have e1 : sub64 ((a - a % 8 + 8) % U64) m.stack_top = a - a % 8 + 8 - m.stack_top := by
    simp only [add64, sub64, U64, WORD_SIZE_BYTES] at *; omega
  have e2 : sub64 m.stack_bot m.stack_top = m.stack_bot - m.stack_top := by
    simp only [add64, sub64, U64, WORD_SIZE_BYTES] at *; omega
  have e3 : sub64 ((a - a % 8 + 8) % U64) m.stack_bot = a - a % 8 + 8 - m.stack_bot := by
    simp only [add64, sub64, U64, WORD_SIZE_BYTES] at *; omega
  have e4 : sub64 ((a - a % 8 + 8) % U64) 1 = a - a % 8 + 7 := by
    simp only [add64, sub64, U64, WORD_SIZE_BYTES] at *; omega
  simp only [grow_stack, if_neg hnot, if_pos hgt, hr, e1, e2, e3, e4, hs]
  rw [memset_ok 0 (by rw [length_malloc]; omega)]
  simp only [bind, Except.bind]
  rw [memcpy_ok (by omega) (by simp [length_malloc]; omega)]
  simp only [pure, Except.pure]
  rw [overlay_back _ _ _ _ (by rw [length_malloc]; omega)]

theorem grow_stack_inside (heap : Nat → Nat) (m : Machine) (a : Nat)
    (h1 : m.stack_top ≤ a) (h2 : a ≤ m.stack_bot) : grow_stack heap m a = .ok m := by
  have hnot : ¬ a < m.stack_top := by omega
  have hnot2 : ¬ a > m.stack_bot := by omega
  simp only [grow_stack, if_neg hnot, if_neg hnot2]; rfl

theorem grow_stack_up_overflow (heap : Nat → Nat) (m : Machine) (a : Nat)
    (ha : a < m.stack_top) (htop : m.stack_top < U64) (hb : m.stack_bot = U64 - 1)
    (h8 : a < WORD_SIZE_BYTES) :
    grow_stack heap m a = .error .undefined := by
  have hr : (if a % WORD_SIZE_BYTES ≠ 0 then sub64 a (a % WORD_SIZE_BYTES) else a) = 0 := by
    simp only [sub64, U64, WORD_SIZE_BYTES] at *; split <;> omega
  have e1 : add64 (sub64 m.stack_bot 0) 1 = 0 := by
    simp only [add64, sub64, U64, WORD_SIZE_BYTES] at *; omega
  have e2 : sub64 m.stack_top 0 = m.stack_top := by
    simp only [sub64, U64] at *; omega
  have hbad : ¬ (0 + m.stack_top ≤ (malloc heap 0).length) := by
    rw [length_malloc]; omega
  simp only [grow_stack, if_pos ha, hr, e1, e2, memset, if_neg hbad]
  rfl

theorem grow_stack_down_overflow (heap : Nat → Nat) (m : Machine) (a : Nat)
    (ha : m.stack_bot < a) (ha64 : a < U64) (htop : m.stack_top = 0) (hbot : 0 < m.stack_bot)
    (h8 : U64 - WORD_SIZE_BYTES ≤ a) :
    grow_stack heap m a = .error .undefined := by
  have hnot : ¬ a < m.stack_top := by omega
  have hgt : a > m.stack_bot := ha
  have hr : (if a % WORD_SIZE_BYTES ≠ 0 then
        add64 a (sub64 WORD_SIZE_BYTES (a % WORD_SIZE_BYTES))
      else add64 a WORD_SIZE_BYTES) = 0 := by
    simp only [add64, sub64, U64, WORD_SIZE_BYTES] at *; split <;> omega
  have e1 : sub64 0 m.stack_top = 0 := by
    simp only [sub64, U64] at *; omega
  have e2 : sub64 m.stack_bot m.stack_top = m.stack_bot := by
    simp only [sub64, U64] at *; omega
  have e3 : sub64 0 m.stack_bot = U64 - m.stack_bot := by
    simp only [sub64, U64] at *; omega
  have hbad : ¬ (m.stack_bot + (U64 - m.stack_bot) ≤ (malloc heap 0).length) := by
    rw [length_malloc]; simp only [U64] at *; omega
  simp only [grow_stack, if_neg hnot, if_pos hgt, hr, e1, e2, e3, memset, if_neg hbad]
  rfl

theorem byteAt_of_inv {m : Machine} {buf : List Nat} (hinv : m.stackInv buf) {X : Nat}
    (h1 : m.stack_top ≤ X) (h2 : X ≤ m.stack_bot) :
    m.byteAt X = buf[X - m.stack_top]? ∧ ∃ v, buf[X - m.stack_top]? = some v := by
  obtain ⟨hs, htb, hb, hlen⟩ := hinv
  have hlt : X - m.stack_top < buf.length := by omega
  refine ⟨by simp [Machine.byteAt, h1, h2, hs], buf[X - m.stack_top], ?_⟩
  exact List.getElem?_eq_getElem hlt

/-! ## Claims on `grow_stack` -/

/-- When `grow_stack` returns: in a state that satisfies the stack invariant, for a 64-bit
address whose covering does not need all `2^64` addresses; the address then lies between
the bounds. -/
theorem grow_stack_returns (heap : Nat → Nat) (m : Machine) (buf : List Nat) (a : Nat)
    (hinv : m.stackInv buf) (ha : a < U64) (hfit : ¬ spansAll m a) :
    ∃ m1, grow_stack heap m a = .ok m1 ∧ m1.stack_top ≤ a ∧ a ≤ m1.stack_bot := by
  have hinv0 := hinv
  obtain ⟨hs, htb, hb, hlen⟩ := hinv
  by_cases h1 : a < m.stack_top
  · have hf : ¬ (m.stack_bot = U64 - 1 ∧ a < WORD_SIZE_BYTES) := fun h => hfit (Or.inl ⟨h1, h⟩)
    refine ⟨_, grow_stack_up heap m buf a hinv0 h1 hf, ?_, ?_⟩
    · show a - a % 8 ≤ a
      omega
    · show a ≤ m.stack_bot
      omega
  · by_cases h2 : m.stack_bot < a
    · have hf : ¬ (m.stack_top = 0 ∧ U64 - WORD_SIZE_BYTES ≤ a) := fun h => hfit (Or.inr ⟨h2, h⟩)
      refine ⟨_, grow_stack_down heap m buf a hinv0 h2 ha hf, ?_, ?_⟩
      · show m.stack_top ≤ a
        omega
      · show a ≤ a - a % 8 + 7
        omega
    · exact ⟨m, grow_stack_inside heap m a (by omega) (by omega), by omega, by omega⟩

/-- C1 (amended): in a machine state that satisfies the stack invariant, for a 64-bit address
`a` whose covering does not need all `2^64` addresses, `grow_stack a` returns a state with
`stack_top ≤ a ≤ stack_bot`; and when `a` already lies between the bounds the call returns
the state it was given, whatever that state is. -/
theorem grow_stack_covers (heap : Nat → Nat) (m : Machine) (buf : List Nat) (a : Nat)
    (hinv : m.stackInv buf) (ha : a < U64) (hfit : ¬ spansAll m a) :
    (∃ m1, grow_stack heap m a = .ok m1 ∧ m1.stack_top ≤ a ∧ a ≤ m1.stack_bot) ∧
    (m.stack_top ≤ a → a ≤ m.stack_bot → grow_stack heap m a = .ok m) :=
  ⟨grow_stack_returns heap m buf a hinv ha hfit, grow_stack_inside heap m a⟩

/-- C1, witness: a stack over `[16, 23]` grown to cover the address 9. -/
theorem grow_stack_covers_witness :
    (∃ m1, grow_stack heap0 (machine0 0 16 23 [1, 2, 3, 4, 5, 6, 7, 8]) 9 = .ok m1 ∧
      m1.stack_top ≤ 9 ∧ 9 ≤ m1.stack_bot) ∧
    ((machine0 0 16 23 [1, 2, 3, 4, 5, 6, 7, 8]).stack_top ≤ 9 →
      9 ≤ (machine0 0 16 23 [1, 2, 3, 4, 5, 6, 7, 8]).stack_bot →
      grow_stack heap0 (machine0 0 16 23 [1, 2, 3, 4, 5, 6, 7, 8]) 9 =
        .ok (machine0 0 16 23 [1, 2, 3, 4, 5, 6, 7, 8])) :=
  grow_stack_covers heap0 (machine0 0 16 23 [1, 2, 3, 4, 5, 6, 7, 8]) [1, 2, 3, 4, 5, 6, 7, 8] 9
    ⟨rfl, by decide, by decide, by decide⟩ (by decide)
    (by simp [spansAll, machine0])

/-- C1, counterexample: the state `init_machine` builds for `sp = 2^64 - 8` has
`stack_top ≤ stack_bot`, and `grow_stack 0` does not return from it: the size
`stack_bot - 0 + 1` wraps to `0` and `memset` writes outside the block. -/
theorem grow_stack_whole_space_faults :
    ∃ m, init_machine k0 heap0 (U64 - 8) 0 ([], 0, 0) = .ok m ∧ m.stack_top ≤ m.stack_bot ∧
      fault (grow_stack heap0 m 0) = some Fault.undefined :=
  ⟨_, rfl, by decide, by decide⟩

/-- What `grow_stack` keeps when it grows downward: in a state that satisfies the stack
invariant, for a 64-bit address `B > stack_bot` whose covering does not need all `2^64`
addresses, the call returns, `stack_top` is unchanged and every byte at an address `X`
with `stack_top ≤ X < stack_bot` reads back unchanged, but the byte at the old `stack_bot`
reads back as zero: `memcpy` copies `stack_bot - stack_top` bytes, one less than the old
buffer holds, and `memset` clears from that offset on. -/
theorem grow_stack_down_bytes (heap : Nat → Nat) (m : Machine) (buf : List Nat) (B : Nat)
    (hinv : m.stackInv buf) (hB : m.stack_bot < B) (hB64 : B < U64)
    (hfit : ¬ (m.stack_top = 0 ∧ U64 - WORD_SIZE_BYTES ≤ B)) :
    ∃ m1, grow_stack heap m B = .ok m1 ∧ m1.stack_top = m.stack_top ∧
      (∀ X, m.stack_top ≤ X → X < m.stack_bot → m1.byteAt X = m.byteAt X) ∧
      m1.byteAt m.stack_bot = some 0 := by
  refine ⟨_, grow_stack_down heap m buf B hinv hB hB64 hfit, rfl, ?_, ?_⟩
  · intro X h1 h2
    obtain ⟨hb1, _⟩ := byteAt_of_inv hinv h1 (Nat.le_of_lt h2)
    obtain ⟨hs, htb, hb, hlen⟩ := hinv
    rw [hb1]
    have hin : m.stack_top ≤ X ∧ X ≤ B - B % 8 + 7 := ⟨h1, by omega⟩
    simp only [Machine.byteAt, hin, and_self, if_true]
    rw [List.getElem?_append_left (by simp; omega)]
    rw [List.getElem?_take_of_lt (by omega)]
  · obtain ⟨hs, htb, hb, hlen⟩ := hinv
    have hin : m.stack_top ≤ m.stack_bot ∧ m.stack_bot ≤ B - B % 8 + 7 := ⟨htb, by omega⟩
    simp only [Machine.byteAt, hin, and_self, if_true]
    rw [List.getElem?_append_right (by simp)]
    simp [List.getElem?_replicate]
    omega

/-- C2, the failing run: after `init_machine` with `sp = 0x1000`, `mov x0, 0xFF00000000000000`
and `str x0, [sp]`, the byte at the address `0x1007`, which is `stack_bot`, is `0xFF`; after
`grow_stack 0x1008` the same address reads `0`, while `stack_top` is unchanged. -/
theorem grow_stack_down_loses_last_byte :
    ∃ m m1 m2, init_machine k0 heap0 4096 0 ([], 0, 0) = .ok m ∧
      run k0 m [instr .mov (xreg 0) (imm 0xFF00000000000000) unused,
                instr .str (xreg 0) (mem_sp 0) unused] = .ok m1 ∧
      grow_stack heap0 m1 4104 = .ok m2 ∧
      m1.stack_bot = 4103 ∧ m1.byteAt 4103 = some 255 ∧
      m2.stack_top = m1.stack_top ∧ m2.byteAt 4103 = some 0 :=
  ⟨_, _, _, rfl, rfl, rfl, by decide, by decide, by decide, by decide⟩

/-- C3 (amended): in a state that satisfies the stack invariant, for a 64-bit address
`B > stack_bot` whose covering does not need all `2^64` addresses, `grow_stack B` returns a
state whose `stack_bot` is at least `B`, strictly greater unless `B % 8 = 7`, and is the
last byte of a word: `stack_bot % 8 = 7`, that is `stack_bot + 1` is a multiple of 8. -/
theorem grow_stack_down_bound (heap : Nat → Nat) (m : Machine) (buf : List Nat) (B : Nat)
    (hinv : m.stackInv buf) (hB : m.stack_bot < B) (hB64 : B < U64)
    (hfit : ¬ (m.stack_top = 0 ∧ U64 - WORD_SIZE_BYTES ≤ B)) :
    ∃ m1, grow_stack heap m B = .ok m1 ∧ B ≤ m1.stack_bot ∧ (B % 8 ≠ 7 → B < m1.stack_bot) ∧
      m1.stack_bot % 8 = 7 ∧ (m1.stack_bot + 1) % 8 = 0 := by
  refine ⟨_, grow_stack_down heap m buf B hinv hB hB64 hfit, ?_, ?_, ?_, ?_⟩
  · show B ≤ B - B % 8 + 7
    omega
  · show B % 8 ≠ 7 → B < B - B % 8 + 7
    omega
  · show (B - B % 8 + 7) % 8 = 7
    omega
  · show (B - B % 8 + 7 + 1) % 8 = 0
    omega

/-- C3, witness: a stack over `[0, 7]` grown to cover the address 8. -/
theorem grow_stack_down_bound_witness :
    ∃ m1, grow_stack heap0 (machine0 0 0 7 [1, 2, 3, 4, 5, 6, 7, 8]) 8 = .ok m1 ∧
      8 ≤ m1.stack_bot ∧ (8 % 8 ≠ 7 → 8 < m1.stack_bot) ∧
      m1.stack_bot % 8 = 7 ∧ (m1.stack_bot + 1) % 8 = 0 :=
  grow_stack_down_bound heap0 (machine0 0 0 7 [1, 2, 3, 4, 5, 6, 7, 8]) [1, 2, 3, 4, 5, 6, 7, 8] 8
    ⟨rfl, by decide, by decide, by decide⟩ (by decide) (by decide) (by decide)

/-- C3, counterexample: from a stack over `[0, 7]`, `grow_stack 15` returns with
`stack_bot = 15`, which is neither strictly greater than 15 nor a multiple of 8. -/
theorem grow_stack_down_bound_counterexample :
    ∃ m1, grow_stack heap0 (machine0 0 0 7 [1, 2, 3, 4, 5, 6, 7, 8]) 15 = .ok m1 ∧
      m1.stack_bot = 15 ∧ m1.stack_bot % 8 = 7 :=
  ⟨_, rfl, by decide, by decide⟩

/-- C4 (amended): in a state that satisfies the stack invariant, for an address
`A < stack_top`, unless `stack_bot = 2^64 - 1` and `A < 8` (covering `A` would then need all
`2^64` addresses), `grow_stack A` returns a state in which `stack_top ≤ A` is a multiple of
8, `stack_bot` is unchanged, every byte stored at an address in `[old stack_top, stack_bot]`
reads back unchanged and every byte in `[new stack_top, old stack_top)` is zero. -/
theorem grow_stack_up_frame (heap : Nat → Nat) (m : Machine) (buf : List Nat) (A : Nat)
    (hinv : m.stackInv buf) (hA : A < m.stack_top)
    (hfit : ¬ (m.stack_bot = U64 - 1 ∧ A < WORD_SIZE_BYTES)) :
    ∃ m1, grow_stack heap m A = .ok m1 ∧ m1.stack_top ≤ A ∧ m1.stack_top % 8 = 0 ∧
      m1.stack_bot = m.stack_bot ∧
      (∀ X, m.stack_top ≤ X → X ≤ m.stack_bot →
        ∃ v, m.byteAt X = some v ∧ m1.byteAt X = some v) ∧
      (∀ X, m1.stack_top ≤ X → X < m.stack_top → m1.byteAt X = some 0) := by
  refine ⟨_, grow_stack_up heap m buf A hinv hA hfit, ?_, ?_, rfl, ?_, ?_⟩
  · show A - A % 8 ≤ A
    omega
  · show (A - A % 8) % 8 = 0
    omega
  · intro X h1 h2
    obtain ⟨hb1, v, hv⟩ := byteAt_of_inv hinv h1 h2
    obtain ⟨hs, htb, hb, hlen⟩ := hinv
    refine ⟨v, by rw [hb1, hv], ?_⟩
    have hin : A - A % 8 ≤ X ∧ X ≤ m.stack_bot := ⟨by omega, h2⟩
    simp only [Machine.byteAt, hin, and_self, if_true]
    rw [List.getElem?_append_right (by simp; omega)]
    rw [← hv]
    congr 1
    simp
    omega
  · intro X h1 h2
    have h1' : A - A % 8 ≤ X := h1
    obtain ⟨hs, htb, hb, hlen⟩ := hinv
    have hin : A - A % 8 ≤ X ∧ X ≤ m.stack_bot := ⟨h1', by omega⟩
    simp only [Machine.byteAt, hin, and_self, if_true]
    rw [List.getElem?_append_left (by simp; omega)]
    simp [List.getElem?_replicate]
    omega

/-- C4, witness: a stack over `[16, 23]` grown to cover the address 9. -/
theorem grow_stack_up_frame_witness :
    ∃ m1, grow_stack heap0 (machine0 0 16 23 [1, 2, 3, 4, 5, 6, 7, 8]) 9 = .ok m1 ∧
      m1.stack_top ≤ 9 ∧ m1.stack_top % 8 = 0 ∧
      m1.stack_bot = (machine0 0 16 23 [1, 2, 3, 4, 5, 6, 7, 8]).stack_bot ∧
      (∀ X, (machine0 0 16 23 [1, 2, 3, 4, 5, 6, 7, 8]).stack_top ≤ X →
        X ≤ (machine0 0 16 23 [1, 2, 3, 4, 5, 6, 7, 8]).stack_bot →
        ∃ v, (machine0 0 16 23 [1, 2, 3, 4, 5, 6, 7, 8]).byteAt X = some v ∧
          m1.byteAt X = some v) ∧
      (∀ X, m1.stack_top ≤ X → X < (machine0 0 16 23 [1, 2, 3, 4, 5, 6, 7, 8]).stack_top →
        m1.byteAt X = some 0) :=
  grow_stack_up_frame heap0 (machine0 0 16 23 [1, 2, 3, 4, 5, 6, 7, 8]) [1, 2, 3, 4, 5, 6, 7, 8] 9
    ⟨rfl, by decide, by decide, by decide⟩ (by decide) (by decide)

/-- C4, counterexample: the state `init_machine` builds for `sp = 2^64 - 8` has
`7 < stack_top`, and `grow_stack 7` does not return from it. -/
theorem grow_stack_up_frame_counterexample :
    ∃ m, init_machine k0 heap0 (U64 - 8) 0 ([], 0, 0) = .ok m ∧ 7 < m.stack_top ∧
      fault (grow_stack heap0 m 7) = some Fault.undefined :=
  ⟨_, rfl, by decide, by decide⟩

theorem bind_eq_ok {α β : Type} {x : Except Fault α} {f : α → Except Fault β} {b : β}
    (h : (x >>= f) = .ok b) : ∃ a, x = .ok a ∧ f a = .ok b := by
  cases x with
  | error e => cases h
  | ok a => exact ⟨a, rfl, h⟩

theorem sameShape_refl (m : Machine) : sameShape m m :=
  ⟨rfl, rfl, fun buf h => ⟨buf, h, rfl⟩⟩

theorem length_to_bytes (n v : Nat) : (to_bytes n v).length = n := by
  induction n generalizing v with
  | zero => rfl
  | succ n ih => simp [to_bytes, ih]

theorem write_bytes_length {buf bs buf1 : List Nat} {off : Nat}
    (h : write_bytes buf off bs = .ok buf1) : buf1.length = buf.length := by
  unfold write_bytes at h
  split at h
  · cases h
    simp
    omega
  · cases h

theorem put_value_frame {m m1 : Machine} {o : Operand} {v : Nat}
    (h : put_value m o v = .ok m1) :
    m1.stack = m.stack ∧ m1.stack_top = m.stack_top ∧ m1.stack_bot = m.stack_bot ∧
    m1.conditions = m.conditions ∧ (o.reg_type ≠ .pc → m1.pc = m.pc) := by
  unfold put_value at h
  split at h
  · split at h <;> cases h <;> simp_all
  · cases h

theorem put_value_sameShape {m m1 : Machine} {o : Operand} {v : Nat}
    (h : put_value m o v = .ok m1) : sameShape m m1 := by
  obtain ⟨h1, h2, h3, _⟩ := put_value_frame h
  exact ⟨h2, h3, fun buf hb => ⟨buf, by rw [h1, hb], rfl⟩⟩

theorem store_sameShape {m : Machine} {st : Option (List Nat)} {off n v : Nat}
    (h : store m.stack off n v = .ok st) : sameShape m { m with stack := st } := by
  refine ⟨rfl, rfl, ?_⟩
  intro buf hb
  rw [hb] at h
  simp only [store] at h
  obtain ⟨b1, hw, h⟩ := bind_eq_ok h
  cases h
  exact ⟨b1, rfl, write_bytes_length hw⟩

theorem execute_arithmetic_sameShape {m m1 : Machine} {i : Instruction}
    (h : execute_arithmetic m i = .ok m1) : sameShape m m1 := by
  unfold execute_arithmetic at h
  obtain ⟨op1, -, h⟩ := bind_eq_ok h
  obtain ⟨op2, -, h⟩ := bind_eq_ok h
  obtain ⟨r, -, h⟩ := bind_eq_ok h
  exact put_value_sameShape h


theorem execute_bitwise_sameShape {m m1 : Machine} {i : Instruction}
    (h : execute_bitwise m i = .ok m1) : sameShape m m1 := by
  unfold execute_bitwise at h
  obtain ⟨op1, -, h⟩ := bind_eq_ok h
  obtain ⟨op2, -, h⟩ := bind_eq_ok h
  obtain ⟨r, -, h⟩ := bind_eq_ok h
  exact put_value_sameShape h

theorem execute_ldr_sameShape {m m1 : Machine} {i : Instruction}
    (h : execute_ldr m i = .ok m1) : sameShape m m1 ∧ m1.pc = m.pc := by
  unfold execute_ldr at h
  obtain ⟨addr, -, h⟩ := bind_eq_ok h
  split at h
  · rename_i hw
    obtain ⟨v, -, h⟩ := bind_eq_ok h
    exact ⟨put_value_sameShape h, (put_value_frame h).2.2.2.2 (by rw [hw]; simp)⟩
  · rename_i hx
    obtain ⟨v, -, h⟩ := bind_eq_ok h
    exact ⟨put_value_sameShape h, (put_value_frame h).2.2.2.2 (by rw [hx]; simp)⟩
  · obtain ⟨v, -, h⟩ := bind_eq_ok h
    cases h
    exact ⟨sameShape_refl m, rfl⟩
  · cases h
    exact ⟨sameShape_refl m, rfl⟩

theorem execute_str_sameShape {m m1 : Machine} {i : Instruction}
    (h : execute_str m i = .ok m1) : sameShape m m1 ∧ m1.pc = m.pc := by
  unfold execute_str at h
  obtain ⟨addr, -, h⟩ := bind_eq_ok h
  split at h
  · obtain ⟨v, -, h⟩ := bind_eq_ok h
    obtain ⟨st, hst, h⟩ := bind_eq_ok h
    cases h
    exact ⟨store_sameShape hst, rfl⟩
  · obtain ⟨v, -, h⟩ := bind_eq_ok h
    obtain ⟨st, hst, h⟩ := bind_eq_ok h
    cases h
    exact ⟨store_sameShape hst, rfl⟩
  · cases h
    exact ⟨sameShape_refl m, rfl⟩

theorem execute_cmp_sameShape {k : Consts} {m m1 : Machine} {i : Instruction}
    (h : execute_cmp k m i = .ok m1) : sameShape m m1 ∧ m1.pc = m.pc := by
  unfold execute_cmp at h
  obtain ⟨a, -, h⟩ := bind_eq_ok h
  obtain ⟨b, -, h⟩ := bind_eq_ok h
  split at h
  · cases h; exact ⟨sameShape_refl m, rfl⟩
  · split at h <;> cases h <;> exact ⟨sameShape_refl m, rfl⟩

theorem execute_branches_sameShape {k : Consts} {m m1 : Machine} {i : Instruction}
    (h : execute_branches k m i = .ok m1) : sameShape m m1 := by
  unfold execute_branches at h
  obtain ⟨t, -, h⟩ := bind_eq_ok h
  split at h <;> (try split at h) <;> cases h <;> exact sameShape_refl m

theorem execute_clz_sameShape {m m1 : Machine} {i : Instruction}
    (h : execute_clz m i = .ok m1) : sameShape m m1 := by
  unfold execute_clz at h
  obtain ⟨v, -, h⟩ := bind_eq_ok h
  split at h
  · exact put_value_sameShape h
  · exact put_value_sameShape h
  · cases h

theorem execute_ldrb_sameShape {m m1 : Machine} {i : Instruction}
    (h : execute_ldrb m i = .ok m1) : sameShape m m1 := by
  unfold execute_ldrb at h
  obtain ⟨addr, -, h⟩ := bind_eq_ok h
  obtain ⟨v, -, h⟩ := bind_eq_ok h
  exact put_value_sameShape h

theorem execute_strb_sameShape {m m1 : Machine} {i : Instruction}
    (h : execute_strb m i = .ok m1) : sameShape m m1 ∧ m1.pc = m.pc := by
  unfold execute_strb at h
  obtain ⟨addr, -, h⟩ := bind_eq_ok h
  obtain ⟨v, -, h⟩ := bind_eq_ok h
  obtain ⟨st, hst, h⟩ := bind_eq_ok h
  cases h
  exact ⟨store_sameShape hst, rfl⟩

/-- The function `execute` changes neither the bounds of the stack nor the length of its
buffer. -/
theorem execute_sameShape {k : Consts} {m m1 : Machine} {i : Instruction}
    (h : execute k m i = .ok m1) : sameShape m m1 := by
  unfold execute at h
  split at h
  all_goals first
    | exact execute_arithmetic_sameShape h
    | exact execute_bitwise_sameShape h
    | exact (execute_ldr_sameShape h).1
    | exact (execute_str_sameShape h).1
    | exact execute_branches_sameShape h
    | exact (execute_cmp_sameShape h).1
    | exact execute_clz_sameShape h
    | exact execute_ldrb_sameShape h
    | exact (execute_strb_sameShape h).1
    | (cases h; exact sameShape_refl m)
    | (obtain ⟨v, -, h⟩ := bind_eq_ok h; exact put_value_sameShape h)

/-! ## Invariants of the reachable states -/

theorem init_machine_ok (k : Consts) (heap : Nat → Nat) (sp pc : Nat)
    (parsed : List Instruction × Nat × Nat) (hsp : sp ≤ U64 - 8) :
    ∃ m, init_machine k heap sp pc parsed = .ok m ∧ m.stack = some (List.replicate 8 0) ∧
      m.stack_top = sp ∧ m.stack_bot = sp + 7 ∧ m.conditions = 0 ∧ m.pc = pc ∧ m.sp = sp := by
  have e : sub64 (add64 sp WORD_SIZE_BYTES) 1 = sp + 7 := by
    simp only [add64, sub64, U64, WORD_SIZE_BYTES] at *; omega
  have hm : memset (malloc heap WORD_SIZE_BYTES) 0 0 WORD_SIZE_BYTES
      = .ok (List.replicate 8 0) := by
    rw [memset_ok 0 (by rw [length_malloc]; decide)]
    rfl
  simp only [init_machine, hm, e]
  exact ⟨_, rfl, rfl, rfl, rfl, rfl, rfl, rfl⟩

/-- The invariant of the reachable states: the stack invariant, a buffer of more than one
byte, and, when the initial `sp` is a multiple of 8, bounds on word boundaries. -/
theorem reachable_inv {k : Consts} {sp : Nat} {m : Machine} (hsp : sp ≤ U64 - 8)
    (h : Reachable k sp m) :
    (∃ buf, m.stackInv buf) ∧ m.stack_top < m.stack_bot ∧
    (sp % 8 = 0 → m.stack_top % 8 = 0 ∧ m.stack_bot % 8 = 7) := by
  induction h with
  | init heap pc parsed m hm =>
    obtain ⟨m0, h0, hs, ht, hb, _⟩ := init_machine_ok k heap sp pc parsed hsp
    rw [h0] at hm
    cases hm
    refine ⟨⟨_, hs, by omega, by simp only [U64] at *; omega, by simp; omega⟩, by omega, ?_⟩
    intro h8
    omega
  | grow heap m m1 a _ ha hg ih =>
    obtain ⟨⟨buf, hinv⟩, hlt, hal⟩ := ih
    have hinv0 := hinv
    obtain ⟨hs, htb, hb, hlen⟩ := hinv
    by_cases h1 : a < m.stack_top
    · by_cases hf : m.stack_bot = U64 - 1 ∧ a < WORD_SIZE_BYTES
      · rw [grow_stack_up_overflow heap m a h1 (by omega) hf.1 hf.2] at hg
        cases hg
      · rw [grow_stack_up heap m buf a hinv0 h1 hf] at hg
        cases hg
        refine ⟨⟨_, rfl, ?_, hb, ?_⟩, ?_, ?_⟩
        · show a - a % 8 ≤ m.stack_bot
          omega
        · show (List.replicate (m.stack_top - (a - a % 8)) 0 ++ buf).length
            = m.stack_bot - (a - a % 8) + 1
          simp; omega
        · show a - a % 8 < m.stack_bot
          omega
        · intro h8
          have := hal h8
          refine ⟨?_, this.2⟩
          show (a - a % 8) % 8 = 0
          omega
    · by_cases h2 : m.stack_bot < a
      · by_cases hf : m.stack_top = 0 ∧ U64 - WORD_SIZE_BYTES ≤ a
        · rw [grow_stack_down_overflow heap m a h2 ha hf.1 (by omega) hf.2] at hg
          cases hg
        · rw [grow_stack_down heap m buf a hinv0 h2 ha hf] at hg
          cases hg
          refine ⟨⟨_, rfl, ?_, ?_, ?_⟩, ?_, ?_⟩
          · show m.stack_top ≤ a - a % 8 + 7
            omega
          · show a - a % 8 + 7 < U64
            simp only [U64, WORD_SIZE_BYTES] at *; omega
          · show (List.take (m.stack_bot - m.stack_top) buf ++
                List.replicate (a - a % 8 + 8 - m.stack_bot) 0).length
              = a - a % 8 + 7 - m.stack_top + 1
            simp; omega
          · show m.stack_top < a - a % 8 + 7
            omega
          · intro h8
            have := hal h8
            refine ⟨this.1, ?_⟩
            show (a - a % 8 + 7) % 8 = 7
            omega
      · rw [grow_stack_inside heap m a (by omega) (by omega)] at hg
        cases hg
        exact ⟨⟨buf, hinv0⟩, hlt, hal⟩
  | exec m m1 i _ he ih =>
    obtain ⟨⟨buf, hs, htb, hb, hlen⟩, hlt, hal⟩ := ih
    obtain ⟨e1, e2, e3⟩ := execute_sameShape he
    obtain ⟨buf1, hs1, hl1⟩ := e3 buf hs
    refine ⟨⟨buf1, hs1, by omega, by omega, by omega⟩, by omega, ?_⟩
    intro h8
    have := hal h8
    omega

/-- C5 (amended): in every state reachable from `init_machine` with an 8-byte-aligned 64-bit
initial `sp` by calls of `grow_stack` and `execute`, `stack_top` is a multiple of 8 and
`stack_bot` is the last byte of a word: `stack_bot % 8 = 7`, so that `stack_bot + 1` is a
multiple of 8. -/
theorem reachable_bounds_aligned (k : Consts) (sp : Nat) (m : Machine) (hsp : sp % 8 = 0)
    (hsp64 : sp < U64) (h : Reachable k sp m) :
    m.stack_top % 8 = 0 ∧ m.stack_bot % 8 = 7 ∧ (m.stack_bot + 1) % 8 = 0 := by
  have hle : sp ≤ U64 - 8 := by simp only [U64] at *; omega
  obtain ⟨_, _, hal⟩ := reachable_inv hle h
  have := hal hsp
  omega

/-- C5, witness: the state after `init_machine` with `sp = 0x1000`, `grow_stack 0x1008`
and a `nop`. -/
theorem reachable_bounds_aligned_witness :
    ∃ m, Reachable k0 4096 m ∧ m.stack_bot = 4111 ∧
      m.stack_top % 8 = 0 ∧ m.stack_bot % 8 = 7 ∧ (m.stack_bot + 1) % 8 = 0 :=
  have h : Reachable k0 4096 _ :=
    Reachable.exec _ _ (instr .nop unused unused unused)
      (Reachable.grow heap0 _ _ 4104
        (Reachable.init heap0 0 ([], 0, 0) _ rfl) (by decide) rfl) rfl
  ⟨_, h, by decide, reachable_bounds_aligned k0 4096 _ (by decide) (by decide) h⟩

/-- C5, counterexample: after `init_machine` with the aligned `sp = 0x1000` the bound
`stack_bot` is `0x1007`, which is not a multiple of 8. -/
theorem init_machine_bot_unaligned :
    ∃ m, init_machine k0 heap0 4096 0 ([], 0, 0) = .ok m ∧ 4096 % 8 = 0 ∧
      m.stack_bot = 4103 ∧ m.stack_bot % 8 = 7 :=
  ⟨_, rfl, by decide, by decide, by decide⟩

/-- C6: `init_machine` with an initial `sp ≤ 2^64 - 8` returns a state with a zero-filled
buffer of 8 bytes over `[sp, sp + 7]`; in every state reachable from it by calls of
`grow_stack` and `execute`, `stack_top ≤ stack_bot` and the buffer has
`stack_bot - stack_top + 1` bytes; and from such a state a call of `grow_stack` on a 64-bit
address returns, unless covering it needs all `2^64` addresses, a state in which this holds
again. -/
theorem reachable_buffer_length (k : Consts) (sp : Nat) (m : Machine) (hsp : sp ≤ U64 - 8)
    (h : Reachable k sp m) :
    (∀ heap pc parsed, ∃ m0, init_machine k heap sp pc parsed = .ok m0 ∧
      m0.stack = some (List.replicate 8 0) ∧ m0.stack_top = sp ∧ m0.stack_bot = sp + 7) ∧
    (m.stack_top ≤ m.stack_bot ∧
      ∃ buf, m.stack = some buf ∧ buf.length = m.stack_bot - m.stack_top + 1) ∧
    (∀ heap a, a < U64 → ¬ spansAll m a →
      ∃ m1, grow_stack heap m a = .ok m1 ∧ m1.stack_top ≤ m1.stack_bot ∧
        ∃ buf1, m1.stack = some buf1 ∧ buf1.length = m1.stack_bot - m1.stack_top + 1) := by
  refine ⟨?_, ?_, ?_⟩
  · intro heap pc parsed
    obtain ⟨m0, h0, hs, ht, hb, _⟩ := init_machine_ok k heap sp pc parsed hsp
    exact ⟨m0, h0, hs, ht, hb⟩
  · obtain ⟨⟨buf, hs, htb, hb, hlen⟩, _, _⟩ := reachable_inv hsp h
    exact ⟨htb, buf, hs, hlen⟩
  · intro heap a ha hfit
    obtain ⟨⟨buf, hinv⟩, _, _⟩ := reachable_inv hsp h
    obtain ⟨m1, h1, _, _⟩ := grow_stack_returns heap m buf a hinv ha hfit
    obtain ⟨⟨buf1, hs1, htb1, hb1, hlen1⟩, _, _⟩ :=
      reachable_inv hsp (Reachable.grow heap m m1 a h ha h1)
    exact ⟨m1, h1, htb1, buf1, hs1, hlen1⟩

/-! ## Claims on `execute` -/

theorem put_value_pc {m m1 : Machine} {o : Operand} {v : Nat}
    (h : put_value m o v = .ok m1) (hpc : o.reg_type ≠ .pc) : m1.pc = m.pc :=
  (put_value_frame h).2.2.2.2 hpc

theorem execute_arithmetic_pc {m m1 : Machine} {i : Instruction}
    (h : execute_arithmetic m i = .ok m1) (hpc : (i.operands 0).reg_type ≠ .pc) :
    m1.pc = m.pc := by
  unfold execute_arithmetic at h
  obtain ⟨op1, -, h⟩ := bind_eq_ok h
  obtain ⟨op2, -, h⟩ := bind_eq_ok h
  obtain ⟨r, -, h⟩ := bind_eq_ok h
  exact put_value_pc h hpc

theorem execute_bitwise_pc {m m1 : Machine} {i : Instruction}
    (h : execute_bitwise m i = .ok m1) (hpc : (i.operands 0).reg_type ≠ .pc) :
    m1.pc = m.pc := by
  unfold execute_bitwise at h
  obtain ⟨op1, -, h⟩ := bind_eq_ok h
  obtain ⟨op2, -, h⟩ := bind_eq_ok h
  obtain ⟨r, -, h⟩ := bind_eq_ok h
  exact put_value_pc h hpc

theorem execute_clz_pc {m m1 : Machine} {i : Instruction}
    (h : execute_clz m i = .ok m1) (hpc : (i.operands 0).reg_type ≠ .pc) :
    m1.pc = m.pc := by
  unfold execute_clz at h
  obtain ⟨v, -, h⟩ := bind_eq_ok h
  split at h
  · exact put_value_pc h hpc
  · exact put_value_pc h hpc
  · cases h

theorem execute_ldrb_pc {m m1 : Machine} {i : Instruction}
    (h : execute_ldrb m i = .ok m1) (hpc : (i.operands 0).reg_type ≠ .pc) :
    m1.pc = m.pc := by
  unfold execute_ldrb at h
  obtain ⟨addr, -, h⟩ := bind_eq_ok h
  obtain ⟨v, -, h⟩ := bind_eq_ok h
  exact put_value_pc h hpc

theorem execute_keeps_pc_aux (k : Consts) (m m1 : Machine) (i : Instruction)
    (hf : falls_through k m i = true) (h : execute k m i = .ok m1) : m1.pc = m.pc := by
  unfold execute at h
  unfold falls_through at hf
  cases hop : i.operation <;> rw [hop] at h hf <;> simp only [decide_eq_true_eq] at h hf
  all_goals first
    | exact Bool.noConfusion hf
    | exact execute_arithmetic_pc h hf
    | exact execute_bitwise_pc h hf
    | exact execute_clz_pc h hf
    | exact execute_ldrb_pc h hf
    | exact (execute_ldr_sameShape h).2
    | exact (execute_str_sameShape h).2
    | exact (execute_strb_sameShape h).2
    | exact (execute_cmp_sameShape h).2
    | (cases h; rfl)
    | (obtain ⟨v, -, h⟩ := bind_eq_ok h; exact put_value_pc h hf)
    | (unfold execute_branches at h
       obtain ⟨t, -, h⟩ := bind_eq_ok h
       rw [hop] at h
       simp only [] at h
       first
         | (rw [if_neg hf] at h; cases h; rfl)
         | (rw [if_neg (not_not.mpr hf)] at h; cases h; rfl))

/-- C8 (amended): `execute` never adds 4 to `pc`.  For an instruction that does not redirect
the control flow (a `nop`, a `cmp`, a store, or a `mov`, an arithmetic, a bitwise, a `clz`
or a load instruction whose destination is not the program counter), and for a conditional
branch whose condition is not satisfied, every state `execute` returns has the `pc` it
started with; a `nop` returns its state unchanged, and so does a conditional branch that
is not taken and whose target resolves. -/
theorem execute_keeps_pc (k : Consts) (m : Machine) (i : Instruction)
    (hf : falls_through k m i = true) :
    (∀ m1, execute k m i = .ok m1 → m1.pc = m.pc) ∧
    (i.operation = .nop → execute k m i = .ok m) ∧
    (is_conditional_branch i.operation = true →
      ∀ t, get_value m (i.operands 0) = .ok t → execute k m i = .ok m) := by
  refine ⟨fun m1 h => execute_keeps_pc_aux k m m1 i hf h, ?_, ?_⟩
  · intro hop
    simp only [execute, hop]
    rfl
  · intro hb t ht
    unfold falls_through at hf
    unfold is_conditional_branch at hb
    cases hop : i.operation <;> rw [hop] at hf hb <;>
      simp only [decide_eq_true_eq] at hf hb <;>
      first
        | exact Bool.noConfusion hb
        | (simp only [execute, execute_branches, hop, ht, bind, Except.bind]
           first
             | rw [if_neg hf]; rfl
             | rw [if_neg (not_not.mpr hf)]; rfl)

/-- C8, witness: a `beq 0x2000` at `pc = 0x1000`, before any `cmp`. -/
theorem execute_keeps_pc_witness :
    (∀ m1, execute k0 (machine0 4096 0 7 [0, 0, 0, 0, 0, 0, 0, 0])
        (instr .beq (imm 8192) unused unused) = .ok m1 →
      m1.pc = (machine0 4096 0 7 [0, 0, 0, 0, 0, 0, 0, 0]).pc) ∧
    ((instr .beq (imm 8192) unused unused).operation = .nop →
      execute k0 (machine0 4096 0 7 [0, 0, 0, 0, 0, 0, 0, 0])
        (instr .beq (imm 8192) unused unused) = .ok (machine0 4096 0 7 [0, 0, 0, 0, 0, 0, 0, 0])) ∧
    (is_conditional_branch (instr .beq (imm 8192) unused unused).operation = true →
      ∀ t, get_value (machine0 4096 0 7 [0, 0, 0, 0, 0, 0, 0, 0])
          ((instr .beq (imm 8192) unused unused).operands 0) = .ok t →
        execute k0 (machine0 4096 0 7 [0, 0, 0, 0, 0, 0, 0, 0])
          (instr .beq (imm 8192) unused unused) = .ok (machine0 4096 0 7 [0, 0, 0, 0, 0, 0, 0, 0])) :=
  execute_keeps_pc k0 (machine0 4096 0 7 [0, 0, 0, 0, 0, 0, 0, 0])
    (instr .beq (imm 8192) unused unused) (by decide)

/-- C8, counterexample: a `nop` executed at `pc = 0x1000` returns a state with
`pc = 0x1000`, not `0x1004`. -/
theorem execute_nop_keeps_pc :
    ∃ m1, execute k0 (machine0 4096 0 7 [0, 0, 0, 0, 0, 0, 0, 0])
        (instr .nop unused unused unused) = .ok m1 ∧ m1.pc = 4096 ∧ m1.pc < 4096 + 4 :=
  ⟨_, rfl, by decide, by decide⟩

theorem execute_cmp_ok (k : Consts) (m : Machine) (i : Instruction) (a b : Nat)
    (hop : i.operation = .cmp) (ha : get_value m (i.operands 0) = .ok a)
    (hb : get_value m (i.operands 1) = .ok b) :
    execute k m i = .ok { m with conditions :=
      if a = b then k.CONDITION_ZERO
      else if a < b then k.CONDITION_NEGATIVE else k.CONDITION_POSITIVE } := by
  simp only [execute, hop, execute_cmp, ha, hb, bind, Except.bind]
  split
  · rfl
  · split <;> rfl

theorem flags_tests (k : Consts) (hk : k.flagsDisjoint) :
    (k.CONDITION_ZERO &&& k.CONDITION_ZERO ≠ 0 ∧ k.CONDITION_NEGATIVE &&& k.CONDITION_ZERO = 0 ∧
      k.CONDITION_POSITIVE &&& k.CONDITION_ZERO = 0) ∧
    (k.CONDITION_ZERO &&& k.CONDITION_NEGATIVE = 0 ∧
      k.CONDITION_NEGATIVE &&& k.CONDITION_NEGATIVE ≠ 0 ∧
      k.CONDITION_POSITIVE &&& k.CONDITION_NEGATIVE = 0) ∧
    (k.CONDITION_ZERO &&& k.CONDITION_POSITIVE = 0 ∧
      k.CONDITION_NEGATIVE &&& k.CONDITION_POSITIVE = 0 ∧
      k.CONDITION_POSITIVE &&& k.CONDITION_POSITIVE ≠ 0) := by
  obtain ⟨hz, hn, hp, hzn, hzp, hnp⟩ := hk
  refine ⟨⟨?_, ?_, ?_⟩, ⟨hzn, ?_, ?_⟩, ⟨hzp, hnp, ?_⟩⟩
  · rwa [Nat.and_self]
  · rwa [Nat.land_comm]
  · rwa [Nat.land_comm]
  · rwa [Nat.and_self]
  · rwa [Nat.land_comm]
  · rwa [Nat.and_self]

theorem flags_distinct (k : Consts) (hk : k.flagsDisjoint) :
    k.CONDITION_ZERO ≠ k.CONDITION_NEGATIVE ∧ k.CONDITION_ZERO ≠ k.CONDITION_POSITIVE ∧
    k.CONDITION_NEGATIVE ≠ k.CONDITION_POSITIVE := by
  obtain ⟨hz, hn, hp, hzn, hzp, hnp⟩ := hk
  refine ⟨?_, ?_, ?_⟩
  · intro h; rw [← h, Nat.and_self] at hzn; exact hz hzn
  · intro h; rw [← h, Nat.and_self] at hzp; exact hz hzp
  · intro h; rw [← h, Nat.and_self] at hnp; exact hn hnp


/-- What a conditional branch does, in terms of the tests on `conditions`. -/
theorem execute_conditional (k : Consts) (m : Machine) (j : Instruction) (t : Nat)
    (ht : get_value m (j.operands 0) = .ok t) :
    (j.operation = .beq → execute k m j =
      .ok (if m.conditions &&& k.CONDITION_ZERO ≠ 0 then { m with pc := t } else m)) ∧
    (j.operation = .bne → execute k m j =
      .ok (if ¬ (m.conditions &&& k.CONDITION_ZERO ≠ 0) then { m with pc := t } else m)) ∧
    (j.operation = .blt → execute k m j =
      .ok (if m.conditions &&& k.CONDITION_NEGATIVE ≠ 0 then { m with pc := t } else m)) ∧
    (j.operation = .bgt → execute k m j =
      .ok (if m.conditions &&& k.CONDITION_POSITIVE ≠ 0 then { m with pc := t } else m)) ∧
    (j.operation = .ble → execute k m j =
      .ok (if m.conditions &&& k.CONDITION_ZERO ≠ 0 ∨ m.conditions &&& k.CONDITION_NEGATIVE ≠ 0
        then { m with pc := t } else m)) ∧
    (j.operation = .bge → execute k m j =
      .ok (if m.conditions &&& k.CONDITION_ZERO ≠ 0 ∨ m.conditions &&& k.CONDITION_POSITIVE ≠ 0
        then { m with pc := t } else m)) := by
  refine ⟨?_, ?_, ?_, ?_, ?_, ?_⟩ <;> intro hop <;>
    simp only [execute, execute_branches, hop, ht, bind, Except.bind] <;>
    split <;> rfl

/-- The value `execute_cmp` stores tells the three outcomes apart. -/
theorem cmp_flag_iff (k : Consts) (hk : k.flagsDisjoint) (a b c : Nat)
    (hc : c = if a = b then k.CONDITION_ZERO
      else if a < b then k.CONDITION_NEGATIVE else k.CONDITION_POSITIVE) :
    (c = k.CONDITION_ZERO ↔ a = b) ∧ (c = k.CONDITION_NEGATIVE ↔ a < b) ∧
    (c = k.CONDITION_POSITIVE ↔ a > b) := by
  obtain ⟨dzn, dzp, dnp⟩ := flags_distinct k hk
  rcases Nat.lt_trichotomy a b with hlt | heq | hgt
  · have hne : a ≠ b := by omega
    rw [if_neg hne, if_pos hlt] at hc
    subst hc
    exact ⟨⟨fun h => absurd h.symm dzn, fun h => absurd h hne⟩, ⟨fun _ => hlt, fun _ => rfl⟩,
      ⟨fun h => absurd h dnp, fun h => by omega⟩⟩
  · rw [if_pos heq] at hc
    subst hc
    exact ⟨⟨fun _ => heq, fun _ => rfl⟩, ⟨fun h => absurd h dzn, fun h => by omega⟩,
      ⟨fun h => absurd h dzp, fun h => by omega⟩⟩
  · have hne : a ≠ b := by omega
    have hnlt : ¬ a < b := by omega
    rw [if_neg hne, if_neg hnlt] at hc
    subst hc
    exact ⟨⟨fun h => absurd h.symm dzp, fun h => absurd h hne⟩,
      ⟨fun h => absurd h.symm dnp, fun h => absurd h hnlt⟩, ⟨fun _ => hgt, fun _ => rfl⟩⟩

/-- The conditional branches in a state whose `conditions` a `cmp` of `a` and `b` set. -/
theorem branch_after_cmp (k : Consts) (hk : k.flagsDisjoint) (m1 : Machine) (a b : Nat)
    (hc : m1.conditions = if a = b then k.CONDITION_ZERO
      else if a < b then k.CONDITION_NEGATIVE else k.CONDITION_POSITIVE)
    (j : Instruction) (t : Nat) (ht : get_value m1 (j.operands 0) = .ok t) :
    (j.operation = .beq →
      execute k m1 j = .ok (if a = b then { m1 with pc := t } else m1)) ∧
    (j.operation = .bne →
      execute k m1 j = .ok (if a ≠ b then { m1 with pc := t } else m1)) ∧
    (j.operation = .blt →
      execute k m1 j = .ok (if a < b then { m1 with pc := t } else m1)) ∧
    (j.operation = .bgt →
      execute k m1 j = .ok (if a > b then { m1 with pc := t } else m1)) ∧
    (j.operation = .ble →
      execute k m1 j = .ok (if a ≤ b then { m1 with pc := t } else m1)) ∧
    (j.operation = .bge →
      execute k m1 j = .ok (if a ≥ b then { m1 with pc := t } else m1)) := by
  obtain ⟨⟨zz, nz, pz⟩, ⟨zn, nn, pn⟩, ⟨zp, np, pp⟩⟩ := flags_tests k hk
  obtain ⟨h1, h2, h3, h4, h5, h6⟩ := execute_conditional k m1 j t ht
  rcases Nat.lt_trichotomy a b with hlt | heq | hgt
  · have hne : a ≠ b := by omega
    rw [if_neg hne, if_pos hlt] at hc
    have tz : m1.conditions &&& k.CONDITION_ZERO = 0 := by rw [hc]; exact nz
    have tn : m1.conditions &&& k.CONDITION_NEGATIVE ≠ 0 := by rw [hc]; exact nn
    have tp : m1.conditions &&& k.CONDITION_POSITIVE = 0 := by rw [hc]; exact np
    refine ⟨fun h => ?_, fun h => ?_, fun h => ?_, fun h => ?_, fun h => ?_, fun h => ?_⟩
    · rw [h1 h, if_neg (fun h => h tz), if_neg hne]
    · rw [h2 h, if_pos (fun h => h tz), if_pos hne]
    · rw [h3 h, if_pos tn, if_pos hlt]
    · rw [h4 h, if_neg (fun h => h tp), if_neg (Nat.lt_asymm hlt)]
    · rw [h5 h, if_pos (Or.inr tn), if_pos (Nat.le_of_lt hlt)]
    · rw [h6 h, if_neg (fun h => h.elim (fun h => h tz) (fun h => h tp)),
        if_neg (Nat.not_le.mpr hlt)]
  · rw [if_pos heq] at hc
    have hnlt : ¬ a < b := by omega
    have hngt : ¬ a > b := by omega
    have tz : m1.conditions &&& k.CONDITION_ZERO ≠ 0 := by rw [hc]; exact zz
    have tn : m1.conditions &&& k.CONDITION_NEGATIVE = 0 := by rw [hc]; exact zn
    have tp : m1.conditions &&& k.CONDITION_POSITIVE = 0 := by rw [hc]; exact zp
    refine ⟨fun h => ?_, fun h => ?_, fun h => ?_, fun h => ?_, fun h => ?_, fun h => ?_⟩
    · rw [h1 h, if_pos tz, if_pos heq]
    · rw [h2 h, if_neg (fun h => h tz), if_neg (fun h => h heq)]
    · rw [h3 h, if_neg (fun h => h tn), if_neg hnlt]
    · rw [h4 h, if_neg (fun h => h tp), if_neg hngt]
    · rw [h5 h, if_pos (Or.inl tz), if_pos (Nat.le_of_eq heq)]
    · rw [h6 h, if_pos (Or.inl tz), if_pos (Nat.le_of_eq heq.symm)]
  · have hne : a ≠ b := by omega
    have hnlt : ¬ a < b := by omega
    rw [if_neg hne, if_neg hnlt] at hc
    have tz : m1.conditions &&& k.CONDITION_ZERO = 0 := by rw [hc]; exact pz
    have tn : m1.conditions &&& k.CONDITION_NEGATIVE = 0 := by rw [hc]; exact pn
    have tp : m1.conditions &&& k.CONDITION_POSITIVE ≠ 0 := by rw [hc]; exact pp
    refine ⟨fun h => ?_, fun h => ?_, fun h => ?_, fun h => ?_, fun h => ?_, fun h => ?_⟩
    · rw [h1 h, if_neg (fun h => h tz), if_neg hne]
    · rw [h2 h, if_pos (fun h => h tz), if_pos hne]
    · rw [h3 h, if_neg (fun h => h tn), if_neg hnlt]
    · rw [h4 h, if_pos tp, if_pos hgt]
    · rw [h5 h, if_neg (fun h => h.elim (fun h => h tz) (fun h => h tn)),
        if_neg (Nat.not_le.mpr hgt)]
    · rw [h6 h, if_pos (Or.inr tp), if_pos (Nat.le_of_lt hgt)]

/-- C9: when the two operands of a `cmp` resolve to `a` and `b`, and the three condition
flags are non-empty masks without a common bit, `execute` returns the state with
`conditions` set to the flag of exactly one of `a = b`, `a < b`, `a > b` (an order on the
unsigned values) and nothing else changed; and a conditional branch executed in that state,
its target resolving to `t`, returns the state with `pc = t` when its relation holds and
the state unchanged otherwise: `beq` for `a = b`, `bne` for `a ≠ b`, `blt` for `a < b`,
`bgt` for `a > b`, `ble` for `a ≤ b`, `bge` for `a ≥ b`. -/
theorem cmp_then_branch (k : Consts) (hk : k.flagsDisjoint) (m : Machine) (i : Instruction)
    (a b : Nat) (hop : i.operation = .cmp) (ha : get_value m (i.operands 0) = .ok a)
    (hb : get_value m (i.operands 1) = .ok b) :
    ∃ m1, execute k m i = .ok m1 ∧
      m1 = { m with conditions := m1.conditions } ∧
      (m1.conditions = k.CONDITION_ZERO ↔ a = b) ∧
      (m1.conditions = k.CONDITION_NEGATIVE ↔ a < b) ∧
      (m1.conditions = k.CONDITION_POSITIVE ↔ a > b) ∧
      ∀ (j : Instruction) (t : Nat), get_value m1 (j.operands 0) = .ok t →
        (j.operation = .beq →
          execute k m1 j = .ok (if a = b then { m1 with pc := t } else m1)) ∧
        (j.operation = .bne →
          execute k m1 j = .ok (if a ≠ b then { m1 with pc := t } else m1)) ∧
        (j.operation = .blt →
          execute k m1 j = .ok (if a < b then { m1 with pc := t } else m1)) ∧
        (j.operation = .bgt →
          execute k m1 j = .ok (if a > b then { m1 with pc := t } else m1)) ∧
        (j.operation = .ble →
          execute k m1 j = .ok (if a ≤ b then { m1 with pc := t } else m1)) ∧
        (j.operation = .bge →
          execute k m1 j = .ok (if a ≥ b then { m1 with pc := t } else m1)) :=
  ⟨_, execute_cmp_ok k m i a b hop ha hb, rfl,
    (cmp_flag_iff k hk a b _ rfl).1, (cmp_flag_iff k hk a b _ rfl).2.1,
    (cmp_flag_iff k hk a b _ rfl).2.2,
    fun j t ht => branch_after_cmp k hk _ a b rfl j t ht⟩

/-- C9, witness: with the flags `1`, `2`, `4`, after `cmp 3, 5` the conditions are
less-than and a `blt 0x2000` is taken; after `cmp 7, 7` they are equal, a `beq 0x2000` is
taken and `bgt` and `blt` are not. -/
theorem cmp_then_branch_witness :
    (∃ m1, execute k0 (machine0 4096 0 7 [0, 0, 0, 0, 0, 0, 0, 0])
        (instr .cmp (imm 3) (imm 5) unused) = .ok m1 ∧ m1.conditions = 2 ∧
      execute k0 m1 (instr .blt (imm 8192) unused unused) = .ok { m1 with pc := 8192 }) ∧
    (∃ m1, execute k0 (machine0 4096 0 7 [0, 0, 0, 0, 0, 0, 0, 0])
        (instr .cmp (imm 7) (imm 7) unused) = .ok m1 ∧ m1.conditions = 1 ∧
      execute k0 m1 (instr .beq (imm 8192) unused unused) = .ok { m1 with pc := 8192 } ∧
      execute k0 m1 (instr .bgt (imm 8192) unused unused) = .ok m1 ∧
      execute k0 m1 (instr .blt (imm 8192) unused unused) = .ok m1) := by
  have hk : k0.flagsDisjoint := by
    unfold Consts.flagsDisjoint; decide
  constructor
  · obtain ⟨m1, h1, _, _, hn, _, hbr⟩ :=
      cmp_then_branch k0 hk (machine0 4096 0 7 [0, 0, 0, 0, 0, 0, 0, 0])
        (instr .cmp (imm 3) (imm 5) unused) 3 5 rfl rfl rfl
    refine ⟨m1, h1, hn.mpr (by decide), ?_⟩
    have := (hbr (instr .blt (imm 8192) unused unused) 8192 rfl).2.2.1 rfl
    rw [this, if_pos (by decide)]
  · obtain ⟨m1, h1, _, hz, _, _, hbr⟩ :=
      cmp_then_branch k0 hk (machine0 4096 0 7 [0, 0, 0, 0, 0, 0, 0, 0])
        (instr .cmp (imm 7) (imm 7) unused) 7 7 rfl rfl rfl
    refine ⟨m1, h1, hz.mpr rfl, ?_, ?_, ?_⟩
    · have := (hbr (instr .beq (imm 8192) unused unused) 8192 rfl).1 rfl
      rw [this, if_pos rfl]
    · have := (hbr (instr .bgt (imm 8192) unused unused) 8192 rfl).2.2.2.1 rfl
      rw [this, if_neg (by decide)]
    · have := (hbr (instr .blt (imm 8192) unused unused) 8192 rfl).2.2.1 rfl
      rw [this, if_neg (by decide)]

/-- C10: when the target operand of a `bl` resolves to `t` in a state with `pc = p`,
`execute` returns the state with register 30 set to `(p + 4) mod 2^64` and `pc` set to `t`,
every other register, `sp`, `conditions` and the stack being unchanged; and a `ret`
executed in that state returns a state with `pc = (p + 4) mod 2^64`, which is `p + 4`
unless that sum leaves the 64-bit range. -/
theorem bl_then_ret (k : Consts) (m : Machine) (i : Instruction) (t : Nat)
    (hop : i.operation = .bl) (ht : get_value m (i.operands 0) = .ok t) :
    ∃ m1, execute k m i = .ok m1 ∧
      m1.registers 30 = (m.pc + 4) % U64 ∧ m1.pc = t ∧
      (∀ r, r ≠ 30 → m1.registers r = m.registers r) ∧
      m1.sp = m.sp ∧ m1.conditions = m.conditions ∧ m1.stack = m.stack ∧
      m1.stack_top = m.stack_top ∧ m1.stack_bot = m.stack_bot ∧
      ∀ j : Instruction, j.operation = .ret →
        ∃ m2, execute k m1 j = .ok m2 ∧ m2.pc = (m.pc + 4) % U64 ∧
          (m.pc + 4 < U64 → m2.pc = m.pc + 4) := by
  refine ⟨{ m with registers := Function.update m.registers 30 (add64 m.pc 4), pc := t },
    ?_, ?_, rfl, ?_, rfl, rfl, rfl, rfl, rfl, ?_⟩
  · simp only [execute, execute_branches, hop, ht, bind, Except.bind]
    rfl
  · simp [add64]
  · intro r hr
    simp [Function.update, hr]
  · intro j hj
    refine ⟨_, by simp only [execute, hj]; rfl, ?_, ?_⟩
    · simp [execute_ret, add64]
    · intro hlt
      simp [execute_ret, add64]
      exact hlt

/-- C10, witness: a `bl 0x2000` at `pc = 0x1000` sets register 30 to `0x1004` and `pc` to
`0x2000`, and the `ret` that follows sets `pc` to `0x1004`. -/
theorem bl_then_ret_witness :
    ∃ m1 m2, execute k0 (machine0 4096 0 7 [0, 0, 0, 0, 0, 0, 0, 0])
        (instr .bl (imm 8192) unused unused) = .ok m1 ∧
      m1.registers 30 = 4100 ∧ m1.pc = 8192 ∧
      execute k0 m1 (instr .ret unused unused unused) = .ok m2 ∧ m2.pc = 4100 := by
  obtain ⟨m1, h1, h30, hpc, _, _, _, _, _, _, hret⟩ :=
    bl_then_ret k0 (machine0 4096 0 7 [0, 0, 0, 0, 0, 0, 0, 0])
      (instr .bl (imm 8192) unused unused) 8192 rfl rfl
  obtain ⟨m2, h2, hpc2, _⟩ := hret (instr .ret unused unused unused) rfl
  exact ⟨m1, m2, h1, h30, hpc, h2, hpc2⟩

/-- C6, witness: the state after `init_machine` with `sp = 0x1000`, `grow_stack 0x1008` and
a `nop` has a buffer of 16 bytes over `[0x1000, 0x100F]`. -/
theorem reachable_buffer_length_witness :
    ∃ m, Reachable k0 4096 m ∧ m.stack_top = 4096 ∧ m.stack_bot = 4111 ∧
      m.stack_top ≤ m.stack_bot ∧
      ∃ buf, m.stack = some buf ∧ buf.length = m.stack_bot - m.stack_top + 1 :=
  have h : Reachable k0 4096 _ :=
    Reachable.exec _ _ (instr .nop unused unused unused)
      (Reachable.grow heap0 _ _ 4104
        (Reachable.init heap0 0 ([], 0, 0) _ rfl) (by decide) rfl) rfl
  ⟨_, h, by decide, by decide, (reachable_buffer_length k0 4096 _ (by decide) h).2.1⟩

/-! ## Claims on the operand accessors -/

theorem put_value_general {m : Machine} {d : Operand} (hd : is_general_register d) (v : Nat) :
    put_value m d v = .ok (with_register m d v) := by
  obtain ⟨ht, hx | hw⟩ := hd
  · simp only [put_value, ht, hx, if_true, with_register]
    rfl
  · simp only [put_value, ht, hw, if_true, with_register]
    rfl

/-- C12: for every register index `i` and every value `v`, `put_value` on the 32-bit view
of register `i` returns a state in which `get_value` on the 64-bit view of register `i`
returns `v mod 2^32`, whatever the register held before and whatever the other fields of
the two operands are; writing `0xFFFFFFFF` reads back as `0x00000000FFFFFFFF`. -/
theorem put_w_then_get_x (m : Machine) (i : Fin 31) (v c c1 : Nat) :
    (∃ m1, put_value m { type := .register, reg_type := .w, reg_num := i, constant := c } v
        = .ok m1 ∧
      get_value m1 { type := .register, reg_type := .x, reg_num := i, constant := c1 }
        = .ok (v % U32) ∧ v % U32 < 2 ^ 32) ∧
    (∃ m1, put_value m (wreg 0) 0xFFFFFFFF = .ok m1 ∧
      get_value m1 (xreg 0) = .ok 0x00000000FFFFFFFF) := by
  refine ⟨⟨_, rfl, ?_, ?_⟩, ⟨_, rfl, ?_⟩⟩
  · simp [get_value]
    rfl
  · exact Nat.mod_lt _ (by decide)
  · simp [get_value, xreg, wreg]
    rfl

/-- C17: the accessors fail on the wrong operand tag and only there.  `get_value` returns a
value when the operand is a constant, an address or a register, and fails its assertion
otherwise, so on every memory operand; `put_value` returns a state when the operand is a
register and fails its assertion otherwise; `get_memory_address` returns an address when
the operand is a memory operand and fails its assertion otherwise. -/
theorem accessors_fail_on_wrong_tag (m : Machine) (o : Operand) (v : Nat) :
    ((∃ r, get_value m o = .ok r) ↔
      (o.type = .constant ∨ o.type = .address ∨ o.type = .register)) ∧
    (get_value m o = .error .assertion ↔
      ¬ (o.type = .constant ∨ o.type = .address ∨ o.type = .register)) ∧
    (o.type = .memory → get_value m o = .error .assertion) ∧
    ((∃ m1, put_value m o v = .ok m1) ↔ o.type = .register) ∧
    (put_value m o v = .error .assertion ↔ ¬ o.type = .register) ∧
    ((∃ r, get_memory_address m o = .ok r) ↔ o.type = .memory) ∧
    (get_memory_address m o = .error .assertion ↔ ¬ o.type = .memory) := by
  refine ⟨?_, ?_, ?_, ?_, ?_, ?_, ?_⟩
  · cases ht : o.type <;> simp only [get_value, ht] <;> (try cases o.reg_type) <;>
      simp [pure, Except.pure]
  · cases ht : o.type <;> simp only [get_value, ht] <;> (try cases o.reg_type) <;>
      simp [pure, Except.pure]
  · intro ht
    simp only [get_value, ht]
  · by_cases ht : o.type = .register
    · simp only [put_value, ht, if_true]
      cases o.reg_type <;> simp [pure, Except.pure]
    · simp [put_value, ht]
  · by_cases ht : o.type = .register
    · simp only [put_value, ht, if_true]
      cases o.reg_type <;> simp [pure, Except.pure]
    · simp [put_value, ht]
  · by_cases ht : o.type = .memory
    · simp only [get_memory_address, ht, if_true, get_value]
      cases o.reg_type <;> simp [pure, Except.pure, bind, Except.bind]
    · simp [get_memory_address, ht]
  · by_cases ht : o.type = .memory
    · simp only [get_memory_address, ht, if_true, get_value]
      cases o.reg_type <;> simp [pure, Except.pure, bind, Except.bind]
    · simp [get_memory_address, ht]

/-- C18: for an instruction whose opcode is none of those `execute` has a case for,
`execute` returns the state it was given, whatever the operands are. -/
theorem execute_unrecognized (k : Consts) (m : Machine) (i : Instruction)
    (h : recognized i.operation = false) : execute k m i = .ok m := by
  cases hop : i.operation <;> rw [hop] at h <;> first
    | exact Bool.noConfusion h
    | (simp only [execute, hop]; rfl)

/-- C18, witness: an instruction with the opcode tag 99 and three memory operands. -/
theorem execute_unrecognized_witness :
    execute k0 (machine0 4096 0 7 [1, 2, 3, 4, 5, 6, 7, 8])
        (instr (.other 99) (mem_sp 0) (mem_sp 8) (mem_sp 16))
      = .ok (machine0 4096 0 7 [1, 2, 3, 4, 5, 6, 7, 8]) :=
  execute_unrecognized k0 (machine0 4096 0 7 [1, 2, 3, 4, 5, 6, 7, 8])
    (instr (.other 99) (mem_sp 0) (mem_sp 8) (mem_sp 16)) rfl

/-! ## Claims on the arithmetic and bitwise instructions -/

theorem put_value_register {m : Machine} {d : Operand} (hd : d.type = .register) (v : Nat) :
    put_value m d v = .ok (write_destination m d v) := by
  simp only [put_value, hd, if_true, write_destination]
  cases d.reg_type <;> rfl

theorem execute_arithmetic_eq {m : Machine} {i : Instruction} {a b r : Nat}
    (ha : get_value m (i.operands 1) = .ok a) (hb : get_value m (i.operands 2) = .ok b)
    (hr : arithmetic_result i.operation a b = .ok r) (hd : (i.operands 0).type = .register) :
    execute_arithmetic m i = .ok (write_destination m (i.operands 0) r) := by
  simp only [execute_arithmetic, ha, hb, hr, bind, Except.bind]
  exact put_value_register hd r

/-- C14: when the operands 1 and 2 of an arithmetic instruction resolve to the 64-bit
values `a` and `b` and its operand 0 is a register operand, `execute` returns the state in
which the result has been written to that destination: `(a + b) mod 2^64` for `add`,
`(a - b) mod 2^64` for `sub` and `subs`, `(a * b) mod 2^64` for `mul`, and for `sdiv` and
`udiv` with `b ≠ 0` the same unsigned quotient `a / b`.  Writing the result `r` changes
nothing but the destination: the general register holds `r` through the 64-bit view and
`r mod 2^32` through the 32-bit view, `sp` holds `r` for the stack-pointer tag and `pc`
holds `r` for the program-counter tag; with any other width tag nothing is written. -/
theorem execute_arithmetic_result (k : Consts) (m : Machine) (i : Instruction) (a b : Nat)
    (ha : get_value m (i.operands 1) = .ok a) (hb : get_value m (i.operands 2) = .ok b)
    (ha64 : a < U64) (hb64 : b < U64) (hd : (i.operands 0).type = .register) :
    (i.operation = .add →
      execute k m i = .ok (write_destination m (i.operands 0) ((a + b) % U64))) ∧
    (i.operation = .sub →
      execute k m i = .ok (write_destination m (i.operands 0) ((a + U64 - b) % U64))) ∧
    (i.operation = .subs →
      execute k m i = .ok (write_destination m (i.operands 0) ((a + U64 - b) % U64))) ∧
    (i.operation = .mul →
      execute k m i = .ok (write_destination m (i.operands 0) ((a * b) % U64))) ∧
    (i.operation = .sdiv → b ≠ 0 →
      execute k m i = .ok (write_destination m (i.operands 0) (a / b))) ∧
    (i.operation = .udiv → b ≠ 0 →
      execute k m i = .ok (write_destination m (i.operands 0) (a / b))) ∧
    (((a + U64 - b) % U64 : Nat) : Int) = ((a : Int) - (b : Int)) % (U64 : Int) ∧
    (∀ r,
      ((i.operands 0).reg_type = .x → write_destination m (i.operands 0) r =
        { m with registers := Function.update m.registers (i.operands 0).reg_num r }) ∧
      ((i.operands 0).reg_type = .w → write_destination m (i.operands 0) r =
        { m with registers :=
            Function.update m.registers (i.operands 0).reg_num (r % 2 ^ 32) }) ∧
      ((i.operands 0).reg_type = .sp →
        write_destination m (i.operands 0) r = { m with sp := r }) ∧
      ((i.operands 0).reg_type = .pc →
        write_destination m (i.operands 0) r = { m with pc := r }) ∧
      (∀ tag, (i.operands 0).reg_type = .other tag →
        write_destination m (i.operands 0) r = m)) := by
  have hsub : sub64 a b = (a + U64 - b) % U64 := by
    simp only [sub64, U64] at *; omega
  refine ⟨?_, ?_, ?_, ?_, ?_, ?_, ?_, ?_⟩
  · intro hop
    simp only [execute, hop]
    exact execute_arithmetic_eq ha hb (by rw [hop]; rfl) hd
  · intro hop
    simp only [execute, hop]
    exact execute_arithmetic_eq ha hb (by rw [hop, ← hsub]; rfl) hd
  · intro hop
    simp only [execute, hop]
    exact execute_arithmetic_eq ha hb (by rw [hop, ← hsub]; rfl) hd
  · intro hop
    simp only [execute, hop]
    exact execute_arithmetic_eq ha hb (by rw [hop]; rfl) hd
  · intro hop hb0
    simp only [execute, hop]
    exact execute_arithmetic_eq ha hb (by rw [hop]; simp [arithmetic_result, hb0]; rfl) hd
  · intro hop hb0
    simp only [execute, hop]
    exact execute_arithmetic_eq ha hb (by rw [hop]; simp [arithmetic_result, hb0]; rfl) hd
  · simp only [U64] at *
    omega
  · intro r
    refine ⟨fun h => ?_, fun h => ?_, fun h => ?_, fun h => ?_, fun tag h => ?_⟩ <;>
      (simp only [write_destination, h]; try rfl)

/-- C14, witness: `add x0, 2, 3` leaves 5 in register 0, `mul w1, 6, 7` leaves 42 in
register 1, and `sub sp, sp, 16` with `sp = 0x1000` leaves `0xFF0` in `sp`. -/
theorem execute_arithmetic_result_witness :
    (∃ m1, execute k0 (machine0 0 4096 4103 [0, 0, 0, 0, 0, 0, 0, 0])
        (instr .add (xreg 0) (imm 2) (imm 3)) = .ok m1 ∧ m1.registers 0 = 5) ∧
    (∃ m1, execute k0 (machine0 0 4096 4103 [0, 0, 0, 0, 0, 0, 0, 0])
        (instr .mul (wreg 1) (imm 6) (imm 7)) = .ok m1 ∧ m1.registers 1 = 42) ∧
    (∃ m1, execute k0 (machine0 0 4096 4103 [0, 0, 0, 0, 0, 0, 0, 0])
        (instr .sub spreg spreg (imm 16)) = .ok m1 ∧ m1.sp = 4080 ∧
      (machine0 0 4096 4103 [0, 0, 0, 0, 0, 0, 0, 0]).sp = 4096) :=
  ⟨⟨_, (execute_arithmetic_result k0 (machine0 0 4096 4103 [0, 0, 0, 0, 0, 0, 0, 0])
      (instr .add (xreg 0) (imm 2) (imm 3)) 2 3 rfl rfl (by decide) (by decide) rfl).1 rfl,
      by decide⟩,
   ⟨_, (execute_arithmetic_result k0 (machine0 0 4096 4103 [0, 0, 0, 0, 0, 0, 0, 0])
      (instr .mul (wreg 1) (imm 6) (imm 7)) 6 7 rfl rfl (by decide) (by decide) rfl).2.2.2.1 rfl,
      by decide⟩,
   ⟨_, (execute_arithmetic_result k0 (machine0 0 4096 4103 [0, 0, 0, 0, 0, 0, 0, 0])
      (instr .sub spreg spreg (imm 16)) 4096 16 rfl rfl (by decide) (by decide) rfl).2.1 rfl,
      by decide, by decide⟩⟩

theorem execute_bitwise_eq {m : Machine} {i : Instruction} {a b r : Nat}
    (ha : get_value m (i.operands 1) = .ok a) (hb : get_value m (i.operands 2) = .ok b)
    (hr : bitwise_result i.operation a b = .ok r) (hd : is_general_register (i.operands 0)) :
    execute_bitwise m i = .ok (with_register m (i.operands 0) r) := by
  simp only [execute_bitwise, ha, hb, hr, bind, Except.bind]
  exact put_value_general hd r

/-- What `neg` does: when operand 1 resolves to the 64-bit value `a` and the destination is
a general register, `execute` returns the state with `(2^64 - a) mod 2^64` in that register
as soon as operand 2 resolves, whatever it resolves to; and it fails the assertion of
`get_value` when the tag of operand 2 is not one that `get_value` admits. -/
theorem execute_neg (k : Consts) (m : Machine) (i : Instruction) (a : Nat)
    (hop : i.operation = .neg) (ha : get_value m (i.operands 1) = .ok a) (ha64 : a < U64)
    (hd : is_general_register (i.operands 0)) :
    (∀ c, get_value m (i.operands 2) = .ok c →
      execute k m i = .ok (with_register m (i.operands 0) ((U64 - a) % U64))) ∧
    (¬ ((i.operands 2).type = .constant ∨ (i.operands 2).type = .address ∨
        (i.operands 2).type = .register) →
      execute k m i = .error .assertion) := by
  have hneg : sub64 0 a = (U64 - a) % U64 := by
    simp only [sub64, U64] at *; omega
  refine ⟨?_, ?_⟩
  · intro c hc
    simp only [execute, hop]
    exact execute_bitwise_eq ha hc (by rw [hop, ← hneg]; rfl) hd
  · intro hbad
    have h2 : get_value m (i.operands 2) = .error .assertion := by
      cases ht : (i.operands 2).type <;> simp only [get_value, ht] <;> simp_all
    simp only [execute, hop, execute_bitwise, ha, h2, bind, Except.bind]

/-- C15, the failing run: `neg x0, x1` with its third operand slot not used, in a state
where register 1 holds 5, ends in the assertion of `get_value`, which `execute_bitwise`
calls on operand 2 before it looks at the opcode. -/
theorem execute_neg_two_operands_asserts :
    ∃ m1, execute k0 (machine0 4096 0 7 [0, 0, 0, 0, 0, 0, 0, 0])
        (instr .mov (xreg 1) (imm 5) unused) = .ok m1 ∧
      get_value m1 (xreg 1) = .ok 5 ∧
      fault (execute k0 m1 (instr .neg (xreg 0) (xreg 1) unused)) = some Fault.assertion ∧
      fault (execute k0 m1 (instr .neg (xreg 0) (xreg 1) (imm 0))) = none :=
  ⟨_, rfl, rfl, rfl, rfl⟩

theorem put_value_bad_tag {m m1 : Machine} {o : Operand} {v tag : Nat}
    (hbad : o.reg_type = .other tag) (h : put_value m o v = .ok m1) : m1 = m := by
  unfold put_value at h
  split at h
  · rw [hbad] at h
    cases h
    rfl
  · cases h

/-- C16 (amended): an invalid width tag on operand 0 of a `mov`, of an arithmetic or a
bitwise instruction, of `ldr`, of `ldrb` or of `str` makes the instruction a no-op: every
state `execute` returns is the state it was given, and a `mov` whose source resolves and
whose operand 0 is a register operand does return.  A register operand with an invalid
width tag that is read resolves to 0, and the instruction goes on with that value. -/
theorem execute_bad_width_tag (k : Consts) (m : Machine) (i : Instruction) (tag : Nat)
    (hbad : (i.operands 0).reg_type = .other tag) (hop : width_tag_decides i.operation = true) :
    (∀ m1, execute k m i = .ok m1 → m1 = m) ∧
    (i.operation = .mov → (i.operands 0).type = .register →
      ∀ v, get_value m (i.operands 1) = .ok v → execute k m i = .ok m) ∧
    (∀ o : Operand, o.type = .register → o.reg_type = .other tag → get_value m o = .ok 0) := by
  refine ⟨?_, ?_, ?_⟩
  · intro m1 h
    unfold execute at h
    unfold width_tag_decides at hop
    cases hopn : i.operation <;> rw [hopn] at h hop <;> simp only [] at h hop
    all_goals first
      | exact Bool.noConfusion hop
      | (unfold execute_arithmetic at h
         obtain ⟨a, -, h⟩ := bind_eq_ok h
         obtain ⟨b, -, h⟩ := bind_eq_ok h
         obtain ⟨r, -, h⟩ := bind_eq_ok h
         exact put_value_bad_tag hbad h)
      | (unfold execute_bitwise at h
         obtain ⟨a, -, h⟩ := bind_eq_ok h
         obtain ⟨b, -, h⟩ := bind_eq_ok h
         obtain ⟨r, -, h⟩ := bind_eq_ok h
         exact put_value_bad_tag hbad h)
      | (obtain ⟨v, -, h⟩ := bind_eq_ok h
         exact put_value_bad_tag hbad h)
      | (unfold execute_ldrb at h
         obtain ⟨a, -, h⟩ := bind_eq_ok h
         obtain ⟨v, -, h⟩ := bind_eq_ok h
         exact put_value_bad_tag hbad h)
      | (unfold execute_ldr at h
         obtain ⟨a, -, h⟩ := bind_eq_ok h
         rw [hbad] at h
         cases h
         rfl)
      | (unfold execute_str at h
         obtain ⟨a, -, h⟩ := bind_eq_ok h
         rw [hbad] at h
         cases h
         rfl)
  · intro hmov ht v hv
    simp only [execute, hmov, hv, bind, Except.bind, put_value, ht, hbad, if_true]
    rfl
  · intro o ht hb
    simp only [get_value, ht, hb]
    rfl

/-- C16, witness: `mov` into a register operand with the width tag 9. -/
theorem execute_bad_width_tag_witness :
    execute k0 (machine0 4096 0 7 [0, 0, 0, 0, 0, 0, 0, 0])
        (instr .mov (bad_register 9 0) (imm 5) unused)
      = .ok (machine0 4096 0 7 [0, 0, 0, 0, 0, 0, 0, 0]) :=
  (execute_bad_width_tag k0 (machine0 4096 0 7 [0, 0, 0, 0, 0, 0, 0, 0])
    (instr .mov (bad_register 9 0) (imm 5) unused) 9 rfl rfl).2.1 rfl rfl 5 rfl

/-- C16, counterexample: a `cmp` whose first operand is a register operand with the width
tag 9 reads it as 0 and sets the conditions, and a `mov` from such an operand overwrites
register 0, which held 5, with 0. -/
theorem execute_bad_width_tag_source :
    ∃ m1 m2 m3, execute k0 (machine0 4096 0 7 [0, 0, 0, 0, 0, 0, 0, 0])
        (instr .cmp (bad_register 9 0) (imm 0) unused) = .ok m1 ∧
      (machine0 4096 0 7 [0, 0, 0, 0, 0, 0, 0, 0]).conditions = 0 ∧ m1.conditions = 1 ∧
      execute k0 (machine0 4096 0 7 [0, 0, 0, 0, 0, 0, 0, 0])
        (instr .mov (xreg 0) (imm 5) unused) = .ok m2 ∧
      execute k0 m2 (instr .mov (xreg 0) (bad_register 9 1) unused) = .ok m3 ∧
      m2.registers 0 = 5 ∧ m3.registers 0 = 0 :=
  ⟨_, _, _, rfl, rfl, rfl, rfl, rfl, rfl, rfl⟩

/-! ## Lemmas on loads and stores -/

theorem write_bytes_ok {buf bs : List Nat} {off : Nat} (h : off + bs.length ≤ buf.length) :
    write_bytes buf off bs = .ok (buf.take off ++ bs ++ buf.drop (off + bs.length)) := by
  simp [write_bytes, h]

theorem written_length {buf bs : List Nat} {off : Nat} (h : off + bs.length ≤ buf.length) :
    (buf.take off ++ bs ++ buf.drop (off + bs.length)).length = buf.length := by
  simp
  omega

theorem written_outside {buf bs : List Nat} {off : Nat} (h : off + bs.length ≤ buf.length)
    (j : Nat) (hj : j < off ∨ off + bs.length ≤ j) :
    (buf.take off ++ bs ++ buf.drop (off + bs.length))[j]? = buf[j]? := by
  rcases hj with hj | hj
  · rw [List.append_assoc, List.getElem?_append_left (by simp; omega)]
    rw [List.getElem?_take_of_lt hj]
  · rw [List.getElem?_append_right (by simp; omega)]
    rw [List.getElem?_drop]
    congr 1
    simp
    omega

theorem written_read_back {buf bs : List Nat} {off : Nat} (h : off + bs.length ≤ buf.length) :
    read_bytes (buf.take off ++ bs ++ buf.drop (off + bs.length)) off bs.length = .ok bs := by
  have hlen := written_length h
  have h1 : off + bs.length ≤ (buf.take off ++ bs ++ buf.drop (off + bs.length)).length := by
    omega
  simp only [read_bytes, h1, if_true]
  rw [List.append_assoc, List.drop_left' (by simp; omega), List.take_left' rfl]

theorem of_bytes_to_bytes (n v : Nat) : of_bytes (to_bytes n v) = v % 256 ^ n := by
  induction n generalizing v with
  | zero => simp [to_bytes, of_bytes, Nat.mod_one]
  | succ n ih =>
    simp only [to_bytes, of_bytes, ih, Nat.mod_mod]
    rw [Nat.pow_succ, Nat.mul_comm (256 ^ n) 256, Nat.mod_mul]

theorem offset_in_buffer {m : Machine} {buf : List Nat} (hinv : m.stackInv buf) {E n : Nat}
    (hn : 0 < n) (htop : m.stack_top ≤ E) (hbot : E + n ≤ m.stack_bot + 1) :
    sub64 E m.stack_top = E - m.stack_top ∧ E - m.stack_top + n ≤ buf.length := by
  obtain ⟨hs, htb, hb, hlen⟩ := hinv
  refine ⟨?_, by omega⟩
  simp only [sub64, U64] at *
  omega

theorem store_ok {m : Machine} {buf : List Nat} (hinv : m.stackInv buf) {E n : Nat} (v : Nat)
    (hn : 0 < n) (htop : m.stack_top ≤ E) (hbot : E + n ≤ m.stack_bot + 1) :
    store m.stack (sub64 E m.stack_top) n v
      = .ok (some (patch buf (E - m.stack_top) (to_bytes n v))) := by
  obtain ⟨ho, hfit⟩ := offset_in_buffer hinv hn htop hbot
  have hfit1 : E - m.stack_top + (to_bytes n v).length ≤ buf.length := by
    rw [length_to_bytes]; exact hfit
  rw [ho, hinv.1]
  simp only [store, write_bytes_ok hfit1, bind, Except.bind, patch]
  rfl

theorem load_after_store {m : Machine} {buf : List Nat} (hinv : m.stackInv buf) {E n : Nat}
    (v : Nat) (hn : 0 < n) (htop : m.stack_top ≤ E) (hbot : E + n ≤ m.stack_bot + 1) :
    load (some (patch buf (E - m.stack_top) (to_bytes n v))) (sub64 E m.stack_top) n
      = .ok (v % 256 ^ n) := by
  obtain ⟨ho, hfit⟩ := offset_in_buffer hinv hn htop hbot
  have hfit1 : E - m.stack_top + (to_bytes n v).length ≤ buf.length := by
    rw [length_to_bytes]; exact hfit
  have := written_read_back hfit1
  rw [length_to_bytes] at this
  rw [ho]
  simp only [load, patch, length_to_bytes, this, bind, Except.bind, of_bytes_to_bytes]
  rfl

theorem byteAt_after_store {m : Machine} {buf : List Nat} (hinv : m.stackInv buf) {E n : Nat}
    (v : Nat) (hn : 0 < n) (htop : m.stack_top ≤ E) (hbot : E + n ≤ m.stack_bot + 1) (X : Nat)
    (hX : X < E ∨ E + n ≤ X) :
    Machine.byteAt { m with stack := some (patch buf (E - m.stack_top) (to_bytes n v)) } X
      = m.byteAt X := by
  obtain ⟨ho, hfit⟩ := offset_in_buffer hinv hn htop hbot
  have hfit1 : E - m.stack_top + (to_bytes n v).length ≤ buf.length := by
    rw [length_to_bytes]; exact hfit
  have hw := @written_outside buf (to_bytes n v) (E - m.stack_top) hfit1
  rw [length_to_bytes] at hw
  by_cases hin : m.stack_top ≤ X ∧ X ≤ m.stack_bot
  · simp only [Machine.byteAt, hin, and_self, if_true, hinv.1, patch, length_to_bytes]
    exact hw (X - m.stack_top) (by omega)
  · simp only [Machine.byteAt, hin, if_false]

theorem patch_length {m : Machine} {buf : List Nat} (hinv : m.stackInv buf) {E n : Nat}
    (v : Nat) (hn : 0 < n) (htop : m.stack_top ≤ E) (hbot : E + n ≤ m.stack_bot + 1) :
    (patch buf (E - m.stack_top) (to_bytes n v)).length = buf.length := by
  obtain ⟨ho, hfit⟩ := offset_in_buffer hinv hn htop hbot
  have hfit1 : E - m.stack_top + (to_bytes n v).length ≤ buf.length := by
    rw [length_to_bytes]; exact hfit
  exact written_length hfit1

/-! ## Claims on loads and stores -/

theorem execute_str_eq {m : Machine} {buf : List Nat} (hinv : m.stackInv buf)
    {i : Instruction} {E v : Nat} (hE : get_memory_address m (i.operands 1) = .ok E)
    (hv : get_value m (i.operands 0) = .ok v) (htop : m.stack_top ≤ E) :
    ((i.operands 0).reg_type = .x → E + 8 ≤ m.stack_bot + 1 →
      execute_str m i
        = .ok { m with stack := some (patch buf (E - m.stack_top) (to_bytes 8 v)) }) ∧
    ((i.operands 0).reg_type = .w → E + 4 ≤ m.stack_bot + 1 →
      execute_str m i
        = .ok { m with stack := some (patch buf (E - m.stack_top) (to_bytes 4 (v % U32))) }) := by
  refine ⟨?_, ?_⟩
  · intro hx hbot
    simp only [execute_str, hE, hx, hv, bind, Except.bind,
      store_ok hinv v (by decide) htop hbot]
    rfl
  · intro hw hbot
    simp only [execute_str, hE, hw, hv, bind, Except.bind,
      store_ok hinv (v % U32) (by decide) htop hbot]
    rfl

theorem execute_strb_eq {m : Machine} {buf : List Nat} (hinv : m.stackInv buf)
    {i : Instruction} {E v : Nat} (hE : get_memory_address m (i.operands 1) = .ok E)
    (hv : get_value m (i.operands 0) = .ok v) (htop : m.stack_top ≤ E)
    (hbot : E + 1 ≤ m.stack_bot + 1) :
    execute_strb m i
      = .ok { m with stack := some (patch buf (E - m.stack_top) (to_bytes 1 (v % 256))) } := by
  simp only [execute_strb, hE, hv, bind, Except.bind,
    store_ok hinv (v % 256) (by decide) htop hbot]
  rfl

/-- C20: stores change only the addressed bytes.  In a state that satisfies the stack
invariant, for a store whose memory operand resolves to the address `E ≥ stack_top` and
whose source resolves: `str` from a 64-bit register with `E + 7 ≤ stack_bot` returns the
state with a new buffer of the same length in which every byte outside `E .. E+7` is the
old one; `str` from a 32-bit register with `E + 3 ≤ stack_bot` keeps every byte outside
`E .. E+3`, so the bytes `E+4 .. E+7` too; `strb` with `E ≤ stack_bot` keeps every byte but
the one at `E`.  The returned state differs from the given one in the buffer only:
registers, `sp`, `pc`, `conditions`, `stack_top` and `stack_bot` are unchanged. -/
theorem store_frame (k : Consts) (m : Machine) (buf : List Nat) (i : Instruction) (E v : Nat)
    (hinv : m.stackInv buf) (hE : get_memory_address m (i.operands 1) = .ok E)
    (hv : get_value m (i.operands 0) = .ok v) (htop : m.stack_top ≤ E) :
    (i.operation = .str → (i.operands 0).reg_type = .x → E + 7 ≤ m.stack_bot →
      ∃ buf1, execute k m i = .ok { m with stack := some buf1 } ∧ buf1.length = buf.length ∧
        ∀ X, X < E ∨ E + 8 ≤ X →
          Machine.byteAt { m with stack := some buf1 } X = m.byteAt X) ∧
    (i.operation = .str → (i.operands 0).reg_type = .w → E + 3 ≤ m.stack_bot →
      ∃ buf1, execute k m i = .ok { m with stack := some buf1 } ∧ buf1.length = buf.length ∧
        ∀ X, X < E ∨ E + 4 ≤ X →
          Machine.byteAt { m with stack := some buf1 } X = m.byteAt X) ∧
    (i.operation = .strb → E ≤ m.stack_bot →
      ∃ buf1, execute k m i = .ok { m with stack := some buf1 } ∧ buf1.length = buf.length ∧
        ∀ X, X < E ∨ E + 1 ≤ X →
          Machine.byteAt { m with stack := some buf1 } X = m.byteAt X) := by
  refine ⟨?_, ?_, ?_⟩
  · intro hop hx hbot
    have hb : E + 8 ≤ m.stack_bot + 1 := by omega
    refine ⟨_, ?_, patch_length hinv v (by decide) htop hb,
      fun X hX => byteAt_after_store hinv v (by decide) htop hb X hX⟩
    simp only [execute, hop]
    exact (execute_str_eq hinv hE hv htop).1 hx hb
  · intro hop hw hbot
    have hb : E + 4 ≤ m.stack_bot + 1 := by omega
    refine ⟨_, ?_, patch_length hinv (v % U32) (by decide) htop hb,
      fun X hX => byteAt_after_store hinv (v % U32) (by decide) htop hb X hX⟩
    simp only [execute, hop]
    exact (execute_str_eq hinv hE hv htop).2 hw hb
  · intro hop hbot
    have hb : E + 1 ≤ m.stack_bot + 1 := by omega
    refine ⟨_, ?_, patch_length hinv (v % 256) (by decide) htop hb,
      fun X hX => byteAt_after_store hinv (v % 256) (by decide) htop hb X hX⟩
    simp only [execute, hop]
    exact execute_strb_eq hinv hE hv htop hb

/-- C20, witness: `str x0, [sp, 8]` on a stack of 16 bytes over `[0, 15]`. -/
theorem store_frame_witness :
    ∃ buf1, execute k0 (machine0 4096 0 15 [1, 2, 3, 4, 5, 6, 7, 8, 9, 10, 11, 12, 13, 14, 15, 16])
        (instr .str (xreg 0) (mem_sp 8) unused)
      = .ok { machine0 4096 0 15 [1, 2, 3, 4, 5, 6, 7, 8, 9, 10, 11, 12, 13, 14, 15, 16] with
          stack := some buf1 } ∧
      buf1.length = 16 ∧
      ∀ X, X < 8 ∨ 8 + 8 ≤ X →
        Machine.byteAt { machine0 4096 0 15 [1, 2, 3, 4, 5, 6, 7, 8, 9, 10, 11, 12, 13, 14, 15, 16]
          with stack := some buf1 } X
        = (machine0 4096 0 15 [1, 2, 3, 4, 5, 6, 7, 8, 9, 10, 11, 12, 13, 14, 15, 16]).byteAt X :=
  (store_frame k0 (machine0 4096 0 15 [1, 2, 3, 4, 5, 6, 7, 8, 9, 10, 11, 12, 13, 14, 15, 16])
    [1, 2, 3, 4, 5, 6, 7, 8, 9, 10, 11, 12, 13, 14, 15, 16]
    (instr .str (xreg 0) (mem_sp 8) unused) 8 0
    ⟨rfl, by decide, by decide, by decide⟩ rfl rfl (by decide)).1 rfl rfl (by decide)

theorem execute_load_eq {m : Machine} {l : Instruction} {E r : Nat}
    (hE : get_memory_address m (l.operands 1) = .ok E)
    (hd : is_general_register (l.operands 0)) :
    ((l.operands 0).reg_type = .x → load m.stack (sub64 E m.stack_top) 8 = .ok r →
      execute_ldr m l = .ok (with_register m (l.operands 0) r)) ∧
    (load m.stack (sub64 E m.stack_top) 1 = .ok r →
      execute_ldrb m l = .ok (with_register m (l.operands 0) r)) := by
  refine ⟨?_, ?_⟩
  · intro hx hl
    simp only [execute_ldr, hE, hx, hl, bind, Except.bind]
    exact put_value_general hd r
  · intro hl
    simp only [execute_ldrb, hE, hl, bind, Except.bind]
    exact put_value_general hd r

/-- C11: store-then-load round trip.  In a state that satisfies the stack invariant, let
the memory operand of a store resolve to the address `E ≥ stack_top` and its source to
`v`, and let the destination of a load be a general register.  A `str` from a 64-bit
register with `E + 7 ≤ stack_bot` returns a state in which an `ldr` into a 64-bit register
from a memory operand that resolves to `E` returns a state whose destination register
holds `v mod 2^64`, that is `v` for every 64-bit `v`.  A `strb` with `E ≤ stack_bot`
returns a state in which an `ldrb` from a memory operand that resolves to `E` returns a
state whose destination register holds `v mod 256`, that is `v` for every one-byte `v`. -/
theorem store_then_load (k : Consts) (m : Machine) (buf : List Nat) (s l : Instruction)
    (E v : Nat) (hinv : m.stackInv buf) (hE : get_memory_address m (s.operands 1) = .ok E)
    (hv : get_value m (s.operands 0) = .ok v) (htop : m.stack_top ≤ E)
    (hd : is_general_register (l.operands 0)) :
    (s.operation = .str → (s.operands 0).reg_type = .x → l.operation = .ldr →
      (l.operands 0).reg_type = .x → E + 7 ≤ m.stack_bot →
      ∃ buf1, execute k m s = .ok { m with stack := some buf1 } ∧
        (get_memory_address { m with stack := some buf1 } (l.operands 1) = .ok E →
          ∃ m2, execute k { m with stack := some buf1 } l = .ok m2 ∧
            m2.registers (l.operands 0).reg_num = v % 2 ^ 64 ∧
            (v < 2 ^ 64 → m2.registers (l.operands 0).reg_num = v))) ∧
    (s.operation = .strb → l.operation = .ldrb → E ≤ m.stack_bot →
      ∃ buf1, execute k m s = .ok { m with stack := some buf1 } ∧
        (get_memory_address { m with stack := some buf1 } (l.operands 1) = .ok E →
          ∃ m2, execute k { m with stack := some buf1 } l = .ok m2 ∧
            m2.registers (l.operands 0).reg_num = v % 256 ∧
            (v < 256 → m2.registers (l.operands 0).reg_num = v))) := by
  refine ⟨?_, ?_⟩
  · intro hs hx hl hlx hbot
    have hb : E + 8 ≤ m.stack_bot + 1 := by omega
    refine ⟨_, by simp only [execute, hs]; exact (execute_str_eq hinv hE hv htop).1 hx hb, ?_⟩
    intro hE1
    have hload := load_after_store hinv v (by decide) htop hb
    refine ⟨_, by simp only [execute, hl]; exact (execute_load_eq hE1 hd).1 hlx hload, ?_, ?_⟩
    · simp [with_register, hlx]
    · intro hv64
      simp [with_register, hlx]
      simpa using hv64
  · intro hs hl hbot
    have hb : E + 1 ≤ m.stack_bot + 1 := by omega
    refine ⟨_, by simp only [execute, hs]; exact execute_strb_eq hinv hE hv htop hb, ?_⟩
    intro hE1
    have hload := load_after_store hinv (v % 256) (by decide) htop hb
    have hmod : v % 256 % 256 ^ 1 = v % 256 := by omega
    rw [hmod] at hload
    have hreg : (with_register
        { m with stack := some (patch buf (E - m.stack_top) (to_bytes 1 (v % 256))) }
        (l.operands 0) (v % 256)).registers (l.operands 0).reg_num = v % 256 := by
      simp only [with_register, Function.update_same]
      split
      · rfl
      · simp only [U32]; omega
    refine ⟨_, by simp only [execute, hl]; exact (execute_load_eq hE1 hd).2 hload, hreg, ?_⟩
    intro hv8
    rw [hreg]
    exact Nat.mod_eq_of_lt hv8

/-- C11, witness: with `0x1122334455667788` in register 0, `str x0, [sp, 8]` followed by
`ldr x1, [sp, 8]` leaves that value in register 1. -/
theorem store_then_load_witness :
    ∃ buf1 m2,
      execute k0
        (with_register (machine0 4096 0 15 [1, 2, 3, 4, 5, 6, 7, 8, 9, 10, 11, 12, 13, 14, 15, 16])
          (xreg 0) 0x1122334455667788)
        (instr .str (xreg 0) (mem_sp 8) unused)
      = .ok { with_register
          (machine0 4096 0 15 [1, 2, 3, 4, 5, 6, 7, 8, 9, 10, 11, 12, 13, 14, 15, 16])
          (xreg 0) 0x1122334455667788 with stack := some buf1 } ∧
      execute k0 { with_register
          (machine0 4096 0 15 [1, 2, 3, 4, 5, 6, 7, 8, 9, 10, 11, 12, 13, 14, 15, 16])
          (xreg 0) 0x1122334455667788 with stack := some buf1 }
        (instr .ldr (xreg 1) (mem_sp 8) unused) = .ok m2 ∧
      m2.registers 1 = 0x1122334455667788 := by
  obtain ⟨buf1, h1, hh⟩ :=
    (store_then_load k0
      (with_register (machine0 4096 0 15 [1, 2, 3, 4, 5, 6, 7, 8, 9, 10, 11, 12, 13, 14, 15, 16])
        (xreg 0) 0x1122334455667788)
      [1, 2, 3, 4, 5, 6, 7, 8, 9, 10, 11, 12, 13, 14, 15, 16]
      (instr .str (xreg 0) (mem_sp 8) unused) (instr .ldr (xreg 1) (mem_sp 8) unused)
      8 0x1122334455667788 ⟨rfl, by decide, by decide, by decide⟩ rfl rfl (by decide)
      ⟨rfl, Or.inl rfl⟩).1 rfl rfl rfl rfl (by decide)
  obtain ⟨m2, h2, _, h3⟩ := hh rfl
  exact ⟨buf1, m2, h1, h2, h3 (by decide)⟩

/-! ## Claim on `clz` -/

theorem clz_loop_spec (i : Nat) : ∀ v c, v < 2 ^ i →
    (v = 0 → clz_loop v i c = c + i) ∧
    (v ≠ 0 → ∃ n, n < i ∧ clz_loop v i c = c + n ∧ 2 ^ (i - 1 - n) ≤ v ∧ v < 2 ^ (i - n)) := by
  induction i with
  | zero =>
    intro v c hv
    have : v = 0 := by simpa using hv
    exact ⟨fun _ => rfl, fun h => absurd this h⟩
  | succ i ih =>
    intro v c hv
    have hpow : 2 ^ (i + 1) = 2 * 2 ^ i := by rw [Nat.pow_succ, Nat.mul_comm]
    have hpos : 0 < 2 ^ i := Nat.pow_pos (by decide)
    by_cases hbit : 2 ^ i ≤ v
    · have hdiv : v / 2 ^ i = 1 := by
        apply Nat.div_eq_of_lt_le <;> omega
      have htest : (v >>> i) &&& 1 ≠ 0 := by
        rw [Nat.shiftRight_eq_div_pow, Nat.and_one_is_mod, hdiv]
        decide
      have hne : v ≠ 0 := by omega
      refine ⟨fun h => absurd h hne, fun _ => ⟨0, Nat.succ_pos i, ?_, ?_, ?_⟩⟩
      · simp only [clz_loop, if_pos htest, Nat.add_zero]
      · simpa using hbit
      · simpa using hv
    · have hlt : v < 2 ^ i := by omega
      have hdiv : v / 2 ^ i = 0 := Nat.div_eq_of_lt hlt
      have htest : ¬ ((v >>> i) &&& 1 ≠ 0) := by
        rw [Nat.shiftRight_eq_div_pow, Nat.and_one_is_mod, hdiv]
        decide
      obtain ⟨h0, h1⟩ := ih v (c + 1) hlt
      refine ⟨fun h => ?_, fun h => ?_⟩
      · simp only [clz_loop, if_neg htest, h0 h]
        omega
      · obtain ⟨n, hn, hr, hlo, hhi⟩ := h1 h
        refine ⟨n + 1, by omega, ?_, ?_, ?_⟩
        · simp only [clz_loop, if_neg htest, hr]
          omega
        · have : i + 1 - 1 - (n + 1) = i - 1 - n := by omega
          rw [this]; exact hlo
        · have : i + 1 - (n + 1) = i - n := by omega
          rw [this]; exact hhi

theorem leading_zeros_unique {a v n n1 : Nat} (hn : n ≤ a) (hn1 : n1 ≤ a)
    (hlo : 2 ^ (a - n) ≤ v) (hhi : v < 2 ^ (a + 1 - n))
    (hlo1 : 2 ^ (a - n1) ≤ v) (hhi1 : v < 2 ^ (a + 1 - n1)) : n1 = n := by
  rcases Nat.lt_trichotomy n1 n with h | h | h
  · have : 2 ^ (a + 1 - n) ≤ 2 ^ (a - n1) := Nat.pow_le_pow_right (by decide) (by omega)
    omega
  · exact h
  · have : 2 ^ (a + 1 - n1) ≤ 2 ^ (a - n) := Nat.pow_le_pow_right (by decide) (by omega)
    omega

theorem execute_clz_eq {k : Consts} {m : Machine} {i : Instruction} {v : Nat}
    (hop : i.operation = .clz) (hv : get_value m (i.operands 1) = .ok v)
    (hd : is_general_register (i.operands 0)) :
    ((i.operands 0).reg_type = .x →
      execute k m i = .ok (with_register m (i.operands 0) (clz_loop v 64 0))) ∧
    ((i.operands 0).reg_type = .w →
      execute k m i = .ok (with_register m (i.operands 0) (clz_loop (v % 2 ^ 32) 32 0))) := by
  have hmask : v &&& 0xFFFFFFFF = v % 2 ^ 32 := by
    have h := Nat.and_pow_two_sub_one_eq_mod v 32
    norm_num at h ⊢
    exact h
  refine ⟨?_, ?_⟩
  · intro hx
    simp only [execute, hop, execute_clz, hv, hx, bind, Except.bind]
    exact put_value_general hd _
  · intro hw
    simp only [execute, hop, execute_clz, hv, hw, bind, Except.bind, hmask]
    exact put_value_general hd _

/-- C13: when the source of a `clz` resolves to the 64-bit value `v` and its destination
is a general register, `execute` returns the state in which that register holds a count
`n`.  Through the 64-bit view `n = 64` if `v = 0`, and otherwise `n` is the only number
in `0..63` with `2^(63-n) ≤ v < 2^(64-n)`.  Through the 32-bit view, with `u = v mod 2^32`,
`n = 32` if `u = 0`, and otherwise `n` is the only number in `0..31` with
`2^(31-n) ≤ u < 2^(32-n)`. -/
theorem execute_clz_result (k : Consts) (m : Machine) (i : Instruction) (v : Nat)
    (hop : i.operation = .clz) (hv : get_value m (i.operands 1) = .ok v) (hv64 : v < 2 ^ 64)
    (hd : is_general_register (i.operands 0)) :
    ((i.operands 0).reg_type = .x →
      ∃ n, execute k m i = .ok (with_register m (i.operands 0) n) ∧
        (with_register m (i.operands 0) n).registers (i.operands 0).reg_num = n ∧
        (v = 0 → n = 64) ∧
        (v ≠ 0 → n ≤ 63 ∧ 2 ^ (63 - n) ≤ v ∧ v < 2 ^ (64 - n) ∧
          ∀ n1, n1 ≤ 63 → 2 ^ (63 - n1) ≤ v → v < 2 ^ (64 - n1) → n1 = n)) ∧
    ((i.operands 0).reg_type = .w →
      ∃ n, execute k m i = .ok (with_register m (i.operands 0) n) ∧
        (with_register m (i.operands 0) n).registers (i.operands 0).reg_num = n ∧
        (v % 2 ^ 32 = 0 → n = 32) ∧
        (v % 2 ^ 32 ≠ 0 → n ≤ 31 ∧ 2 ^ (31 - n) ≤ v % 2 ^ 32 ∧ v % 2 ^ 32 < 2 ^ (32 - n) ∧
          ∀ n1, n1 ≤ 31 → 2 ^ (31 - n1) ≤ v % 2 ^ 32 → v % 2 ^ 32 < 2 ^ (32 - n1) →
            n1 = n)) := by
  obtain ⟨hx64, hw32⟩ := execute_clz_eq (k := k) hop hv hd
  refine ⟨?_, ?_⟩
  · intro hx
    obtain ⟨h0, h1⟩ := clz_loop_spec 64 v 0 hv64
    refine ⟨_, hx64 hx, by simp [with_register, hx], fun h => by rw [h0 h], fun h => ?_⟩
    obtain ⟨n, hn, hr, hlo, hhi⟩ := h1 h
    rw [hr, Nat.zero_add]
    have e1 : 64 - 1 - n = 63 - n := by omega
    rw [e1] at hlo
    refine ⟨by omega, hlo, hhi, fun n1 hn1 hlo1 hhi1 => ?_⟩
    exact leading_zeros_unique (a := 63) (by omega) hn1 hlo
      (by rw [show 63 + 1 - n = 64 - n by omega]; exact hhi) hlo1
      (by rw [show 63 + 1 - n1 = 64 - n1 by omega]; exact hhi1)
  · intro hw
    have hu : v % 2 ^ 32 < 2 ^ 32 := Nat.mod_lt _ (by decide)
    obtain ⟨h0, h1⟩ := clz_loop_spec 32 (v % 2 ^ 32) 0 hu
    have hle : clz_loop (v % 2 ^ 32) 32 0 ≤ 32 := by
      by_cases h : v % 2 ^ 32 = 0
      · rw [h0 h]
      · obtain ⟨n, hn, hr, _, _⟩ := h1 h
        rw [hr]; omega
    refine ⟨_, hw32 hw, ?_, fun h => by rw [h0 h], fun h => ?_⟩
    · simp only [with_register, Function.update_same, hw]
      simp only [U32]
      split
      · rfl
      · omega
    obtain ⟨n, hn, hr, hlo, hhi⟩ := h1 h
    rw [hr, Nat.zero_add]
    have e1 : 32 - 1 - n = 31 - n := by omega
    rw [e1] at hlo
    refine ⟨by omega, hlo, hhi, fun n1 hn1 hlo1 hhi1 => ?_⟩
    exact leading_zeros_unique (a := 31) (by omega) hn1 hlo
      (by rw [show 31 + 1 - n = 32 - n by omega]; exact hhi) hlo1
      (by rw [show 31 + 1 - n1 = 32 - n1 by omega]; exact hhi1)

/-- C13, witness: `clz` of 1 is 63 into a 64-bit register and 31 into a 32-bit register,
and `clz` of 0 is 64 into a 64-bit register. -/
theorem execute_clz_result_witness :
    (∃ m1, execute k0 (machine0 4096 0 7 [0, 0, 0, 0, 0, 0, 0, 0])
        (instr .clz (xreg 0) (imm 1) unused) = .ok m1 ∧ m1.registers 0 = 63) ∧
    (∃ m1, execute k0 (machine0 4096 0 7 [0, 0, 0, 0, 0, 0, 0, 0])
        (instr .clz (wreg 0) (imm 1) unused) = .ok m1 ∧ m1.registers 0 = 31) ∧
    (∃ m1, execute k0 (machine0 4096 0 7 [0, 0, 0, 0, 0, 0, 0, 0])
        (instr .clz (xreg 0) (imm 0) unused) = .ok m1 ∧ m1.registers 0 = 64) := by
  refine ⟨?_, ?_, ?_⟩
  · obtain ⟨n, h, hr, _, h1⟩ :=
      (execute_clz_result k0 (machine0 4096 0 7 [0, 0, 0, 0, 0, 0, 0, 0])
        (instr .clz (xreg 0) (imm 1) unused) 1 rfl rfl (by decide) ⟨rfl, Or.inl rfl⟩).1 rfl
    obtain ⟨_, _, _, hu⟩ := h1 (by decide)
    have h63 : 63 = n := hu 63 (by decide) (by decide) (by decide)
    subst h63
    exact ⟨_, h, hr⟩
  · obtain ⟨n, h, hr, _, h1⟩ :=
      (execute_clz_result k0 (machine0 4096 0 7 [0, 0, 0, 0, 0, 0, 0, 0])
        (instr .clz (wreg 0) (imm 1) unused) 1 rfl rfl (by decide) ⟨rfl, Or.inr rfl⟩).2 rfl
    obtain ⟨_, _, _, hu⟩ := h1 (by decide)
    have h31 : 31 = n := hu 31 (by decide) (by decide) (by decide)
    subst h31
    exact ⟨_, h, hr⟩
  · obtain ⟨n, h, hr, h0, _⟩ :=
      (execute_clz_result k0 (machine0 4096 0 7 [0, 0, 0, 0, 0, 0, 0, 0])
        (instr .clz (xreg 0) (imm 0) unused) 0 rfl rfl (by decide) ⟨rfl, Or.inl rfl⟩).1 rfl
    have h64 : n = 64 := h0 rfl
    subst h64
    exact ⟨_, h, hr⟩

/-! ## Claim on the conditions -/

theorem grow_stack_conditions {heap : Nat → Nat} {m m1 : Machine} {a : Nat}
    (h : grow_stack heap m a = .ok m1) : m1.conditions = m.conditions := by
  by_cases h1 : a < m.stack_top
  · simp only [grow_stack, if_pos h1] at h
    obtain ⟨s1, _, h⟩ := bind_eq_ok h
    split at h <;> obtain ⟨s2, _, h⟩ := bind_eq_ok h <;> cases h <;> rfl
  · by_cases h2 : a > m.stack_bot
    · simp only [grow_stack, if_neg h1, if_pos h2] at h
      obtain ⟨s1, _, h⟩ := bind_eq_ok h
      split at h <;> obtain ⟨s2, _, h⟩ := bind_eq_ok h <;> cases h <;> rfl
    · simp only [grow_stack, if_neg h1, if_neg h2] at h
      cases h
      rfl

theorem put_value_conditions {m m1 : Machine} {o : Operand} {v : Nat}
    (h : put_value m o v = .ok m1) : m1.conditions = m.conditions :=
  (put_value_frame h).2.2.2.1

/-- Every instruction but `cmp` leaves `conditions` as it is, and `cmp` sets it to one of
the three flags. -/
theorem execute_conditions {k : Consts} {m m1 : Machine} {i : Instruction}
    (h : execute k m i = .ok m1) :
    (i.operation ≠ .cmp → m1.conditions = m.conditions) ∧
    (i.operation = .cmp → m1.conditions = k.CONDITION_ZERO ∨
      m1.conditions = k.CONDITION_NEGATIVE ∨ m1.conditions = k.CONDITION_POSITIVE) := by
  unfold execute at h
  cases hop : i.operation <;> rw [hop] at h <;> simp only [] at h <;>
    refine ⟨fun hne => ?_, fun he => ?_⟩ <;>
    first
    | exact absurd rfl hne
    | exact Operation.noConfusion he
    | skip
  all_goals first
    | (unfold execute_arithmetic at h
       obtain ⟨a, -, h⟩ := bind_eq_ok h
       obtain ⟨b, -, h⟩ := bind_eq_ok h
       obtain ⟨r, -, h⟩ := bind_eq_ok h
       exact put_value_conditions h)
    | (unfold execute_bitwise at h
       obtain ⟨a, -, h⟩ := bind_eq_ok h
       obtain ⟨b, -, h⟩ := bind_eq_ok h
       obtain ⟨r, -, h⟩ := bind_eq_ok h
       exact put_value_conditions h)
    | (obtain ⟨v, -, h⟩ := bind_eq_ok h
       exact put_value_conditions h)
    | (unfold execute_ldrb at h
       obtain ⟨a, -, h⟩ := bind_eq_ok h
       obtain ⟨v, -, h⟩ := bind_eq_ok h
       exact put_value_conditions h)
    | (unfold execute_clz at h
       obtain ⟨v, -, h⟩ := bind_eq_ok h
       split at h
       · exact put_value_conditions h
       · exact put_value_conditions h
       · cases h)
    | (unfold execute_ldr at h
       obtain ⟨a, -, h⟩ := bind_eq_ok h
       split at h
       · obtain ⟨v, -, h⟩ := bind_eq_ok h
         exact put_value_conditions h
       · obtain ⟨v, -, h⟩ := bind_eq_ok h
         exact put_value_conditions h
       · obtain ⟨v, -, h⟩ := bind_eq_ok h
         cases h
         rfl
       · cases h
         rfl)
    | (unfold execute_str at h
       obtain ⟨a, -, h⟩ := bind_eq_ok h
       split at h
       · obtain ⟨v, -, h⟩ := bind_eq_ok h
         obtain ⟨st, -, h⟩ := bind_eq_ok h
         cases h
         rfl
       · obtain ⟨v, -, h⟩ := bind_eq_ok h
         obtain ⟨st, -, h⟩ := bind_eq_ok h
         cases h
         rfl
       · cases h
         rfl)
    | (unfold execute_strb at h
       obtain ⟨a, -, h⟩ := bind_eq_ok h
       obtain ⟨v, -, h⟩ := bind_eq_ok h
       obtain ⟨st, -, h⟩ := bind_eq_ok h
       cases h
       rfl)
    | (unfold execute_branches at h
       obtain ⟨t, -, h⟩ := bind_eq_ok h
       rw [hop] at h
       simp only [] at h
       first
         | (cases h; rfl)
         | (split at h <;> cases h <;> rfl))
    | (unfold execute_cmp at h
       obtain ⟨a, -, h⟩ := bind_eq_ok h
       obtain ⟨b, -, h⟩ := bind_eq_ok h
       split at h
       · cases h; exact Or.inl rfl
       · split at h
         · cases h; exact Or.inr (Or.inl rfl)
         · cases h; exact Or.inr (Or.inr rfl))
    | (cases h; rfl)

theorem init_machine_conditions {k : Consts} {heap : Nat → Nat} {sp pc : Nat}
    {parsed : List Instruction × Nat × Nat} {m : Machine}
    (h : init_machine k heap sp pc parsed = .ok m) : m.conditions = 0 := by
  unfold init_machine at h
  obtain ⟨s1, _, h⟩ := bind_eq_ok h
  cases h
  rfl

theorem reachable_conditions {k : Consts} {sp : Nat} {c : Bool} {m : Machine}
    (h : ReachableCmp k sp c m) :
    (c = false → m.conditions = 0) ∧
    (c = true → m.conditions = k.CONDITION_ZERO ∨ m.conditions = k.CONDITION_NEGATIVE ∨
      m.conditions = k.CONDITION_POSITIVE) := by
  induction h with
  | init heap pc parsed m hm =>
    exact ⟨fun _ => init_machine_conditions hm, fun hc => Bool.noConfusion hc⟩
  | grow heap c m m1 a _ _ hg ih =>
    rw [grow_stack_conditions hg]
    exact ih
  | exec c m m1 i _ he ih =>
    obtain ⟨hkeep, hset⟩ := execute_conditions he
    by_cases hop : i.operation = .cmp
    · refine ⟨fun hc => ?_, fun _ => hset hop⟩
      simp [hop] at hc
    · rw [hkeep hop]
      have : (c || decide (i.operation = .cmp)) = c := by simp [hop]
      rw [this]
      exact ih

/-- C19: in a state reachable before any `cmp` has been executed, so in the state
`init_machine` builds, `conditions` is 0; there `beq`, `blt`, `bgt`, `ble` and `bge` with a
target that resolves return the state unchanged, and `bne` returns it with `pc` set to the
target.  In a state reachable after a `cmp` has been executed, `conditions` is exactly one
of the three flags, which are different from each other and from 0. -/
theorem conditions_around_cmp (k : Consts) (hk : k.flagsDisjoint) (sp : Nat) (c : Bool)
    (m : Machine) (h : ReachableCmp k sp c m) :
    (c = false → m.conditions = 0 ∧
      ∀ (j : Instruction) (t : Nat), get_value m (j.operands 0) = .ok t →
        (j.operation = .beq → execute k m j = .ok m) ∧
        (j.operation = .blt → execute k m j = .ok m) ∧
        (j.operation = .bgt → execute k m j = .ok m) ∧
        (j.operation = .ble → execute k m j = .ok m) ∧
        (j.operation = .bge → execute k m j = .ok m) ∧
        (j.operation = .bne → execute k m j = .ok { m with pc := t })) ∧
    (c = true →
      (m.conditions = k.CONDITION_ZERO ∧ m.conditions ≠ k.CONDITION_NEGATIVE ∧
        m.conditions ≠ k.CONDITION_POSITIVE ∧ m.conditions ≠ 0) ∨
      (m.conditions = k.CONDITION_NEGATIVE ∧ m.conditions ≠ k.CONDITION_ZERO ∧
        m.conditions ≠ k.CONDITION_POSITIVE ∧ m.conditions ≠ 0) ∨
      (m.conditions = k.CONDITION_POSITIVE ∧ m.conditions ≠ k.CONDITION_ZERO ∧
        m.conditions ≠ k.CONDITION_NEGATIVE ∧ m.conditions ≠ 0)) := by
  obtain ⟨hfalse, htrue⟩ := reachable_conditions h
  obtain ⟨dzn, dzp, dnp⟩ := flags_distinct k hk
  obtain ⟨hz, hn, hp, _⟩ := hk
  refine ⟨fun hc => ⟨hfalse hc, fun j t ht => ?_⟩, fun hc => ?_⟩
  · have h0 := hfalse hc
    have tz : m.conditions &&& k.CONDITION_ZERO = 0 := by rw [h0, Nat.zero_and]
    have tn : m.conditions &&& k.CONDITION_NEGATIVE = 0 := by rw [h0, Nat.zero_and]
    have tp : m.conditions &&& k.CONDITION_POSITIVE = 0 := by rw [h0, Nat.zero_and]
    obtain ⟨h1, h2, h3, h4, h5, h6⟩ := execute_conditional k m j t ht
    refine ⟨fun e => ?_, fun e => ?_, fun e => ?_, fun e => ?_, fun e => ?_, fun e => ?_⟩
    · rw [h1 e, if_neg (fun h => h tz)]
    · rw [h3 e, if_neg (fun h => h tn)]
    · rw [h4 e, if_neg (fun h => h tp)]
    · rw [h5 e, if_neg (fun h => h.elim (fun h => h tz) (fun h => h tn))]
    · rw [h6 e, if_neg (fun h => h.elim (fun h => h tz) (fun h => h tp))]
    · rw [h2 e, if_pos (fun h => h tz)]
  · rcases htrue hc with e | e | e
    · exact Or.inl ⟨e, by rw [e]; exact dzn, by rw [e]; exact dzp, by rw [e]; exact hz⟩
    · exact Or.inr (Or.inl ⟨e, by rw [e]; exact fun h => dzn h.symm, by rw [e]; exact dnp,
        by rw [e]; exact hn⟩)
    · exact Or.inr (Or.inr ⟨e, by rw [e]; exact fun h => dzp h.symm,
        by rw [e]; exact fun h => dnp h.symm, by rw [e]; exact hp⟩)

/-- C19, witness: with the flags `1`, `2`, `4`, in the state `init_machine` builds for
`sp = pc = 0x1000` the conditions are 0, a `beq 0x2000` is not taken and a `bne 0x2000`
is taken. -/
theorem conditions_around_cmp_witness :
    ∃ m, init_machine k0 heap0 4096 4096 ([], 0, 0) = .ok m ∧ m.conditions = 0 ∧
      execute k0 m (instr .beq (imm 8192) unused unused) = .ok m ∧
      execute k0 m (instr .bne (imm 8192) unused unused) = .ok { m with pc := 8192 } := by
  have hk : k0.flagsDisjoint := by
    unfold Consts.flagsDisjoint; decide
  have hr : ReachableCmp k0 4096 false _ :=
    ReachableCmp.init heap0 4096 ([], 0, 0) _ rfl
  obtain ⟨h0, hb⟩ := (conditions_around_cmp k0 hk 4096 false _ hr).1 rfl
  exact ⟨_, rfl, h0, (hb (instr .beq (imm 8192) unused unused) 8192 rfl).1 rfl,
    (hb (instr .bne (imm 8192) unused unused) 8192 rfl).2.2.2.2.2 rfl⟩

end AsmSim
